import Mathlib

/-!
# Verification of the ksconf configuration merge/diff engine

Shallow embedding of the core parsing / writing / merging / diffing logic of
`ksconf.py` (a Python 2 program).  Modelling conventions:

* A Python `dict` is modelled as an insertion-ordered association list
  (`List (α × β)`): assignment `d[k] = v` updates the existing entry in place
  or appends a new one, `del d[k]` removes the entry, and Python `==` on dicts
  (which ignores insertion order) is modelled by the Boolean equivalence
  `stanzaEqb` / `docEqb`.  All dicts built by the program have duplicate-free
  keys; well-formedness hypotheses state this where proofs require it.
* A text stream is modelled as the list of its lines, each line given without
  its trailing `"\n"` terminator (Unix line endings; no carriage returns in
  the input).  On such streams Python's `re.match` of `^(.*)\\$` against a
  raw line (where `$` matches just before the trailing newline) succeeds
  exactly when the line content ends in a backslash.
* The `GLOBAL_STANZA` sentinel `Token()` is the dedicated constructor
  `StanzaKey.global`.  CPython 2 orders objects of distinct types by type
  name, so a `Token` instance sorts before every `str` (`"Token" < "str"`);
  the order `keyBle` mirrors this.
* Python string comparison is byte-wise lexicographic; `strBle` compares the
  character lists of Lean strings, which agrees on ASCII data.
* Exceptions (`ConfParserException` and subclasses) are modelled with
  `Except String`.
-/

namespace Ksconf

/-! ## Character and string helpers -/

/-- Characters matched by Python's `\s` and stripped by `str.strip()`. -/
def isPySpace (c : Char) : Bool :=
  c = ' ' || c = '\t' || c = '\n' || c = '\r' || c = '\x0b' || c = '\x0c'

/-- `str.rstrip()` (strip trailing whitespace). -/
def rstripPy (s : String) : String :=
  String.mk ((s.data.reverse.dropWhile isPySpace).reverse)

/-- `str.lstrip()` (strip leading whitespace). -/
def lstripPy (s : String) : String :=
  String.mk (s.data.dropWhile isPySpace)

/-- `str.rstrip("\r\n")`: strip trailing newline / carriage-return characters. -/
def rstripNL (s : String) : String :=
  String.mk ((s.data.reverse.dropWhile (fun c => c = '\n' || c = '\r')).reverse)

/-- Does the character list `s` start with `p`? -/
def listStarts [DecidableEq α] : List α → List α → Bool
  | [], _ => true
  | _ :: _, [] => false
  | a :: as, b :: bs => a = b && listStarts as bs

/-- Does `s` contain `pat` as a contiguous sublist?  (Python `pat in s`.) -/
def listHasSub [DecidableEq α] (pat : List α) : List α → Bool
  | [] => listStarts pat []
  | c :: t => listStarts pat (c :: t) || listHasSub pat t

/-- Python `pat in s` on strings. -/
def strHasSub (s pat : String) : Bool :=
  listHasSub pat.data s.data

/-- Byte-wise (here: character-wise) string `≤`, as in Python 2 `str` order. -/
def listBle : List Char → List Char → Bool
  | [], _ => true
  | _ :: _, [] => false
  | a :: as, b :: bs => if a = b then listBle as bs else decide (a < b)

def strBle (s t : String) : Bool :=
  listBle s.data t.data

/-- Python 2 tuple comparison on `(key, value)` string pairs. -/
def pairBle (a b : String × String) : Bool :=
  if a.1 = b.1 then strBle a.2 b.2 else strBle a.1 b.1

/-- A stable sort with a Boolean comparator; models Python's `sorted`. -/
def sortByB (le : α → α → Bool) (l : List α) : List α :=
  List.insertionSort (fun x y => le x y = true) l

/-- Order-preserving removal of duplicates (models iterating a Python `set`,
whose arbitrary order is immediately made deterministic by `sorted`). -/
def dedupL [DecidableEq α] : List α → List α
  | [] => []
  | a :: t => a :: (dedupL t).filter (fun x => x ≠ a)

/-! ## Python-dict association lists -/

variable {α : Type} {β : Type}

/-- `d[k]` lookup (first matching entry). -/
def dlookup [DecidableEq α] : List (α × β) → α → Option β
  | [], _ => none
  | (k, v) :: t, a => if k = a then some v else dlookup t a

/-- `k in d`. -/
def dcontains [DecidableEq α] (l : List (α × β)) (a : α) : Bool :=
  (dlookup l a).isSome

/-- `d[k]` with a default, for use in branches guarded by `dcontains`. -/
def dgetD [DecidableEq α] (l : List (α × β)) (a : α) (dflt : β) : β :=
  (dlookup l a).getD dflt

/-- `d[k] = v`: update in place, or append a new entry. -/
def dset [DecidableEq α] : List (α × β) → α → β → List (α × β)
  | [], a, b => [(a, b)]
  | (k, v) :: t, a, b => if k = a then (a, b) :: t else (k, v) :: dset t a b

/-- `del d[k]` (removes the first matching entry; dicts have unique keys). -/
def ddel [DecidableEq α] : List (α × β) → α → List (α × β)
  | [], _ => []
  | (k, v) :: t, a => if k = a then t else (k, v) :: ddel t a

/-- `base.update(new)`: fold the entries of `new` into `base`. -/
def dupdate [DecidableEq α] (base new : List (α × β)) : List (α × β) :=
  new.foldl (fun b kv => dset b kv.1 kv.2) base

/-- `d.keys()`. -/
def keysOf (l : List (α × β)) : List α :=
  l.map Prod.fst

/-- Duplicate-free keys: the well-formedness invariant of every dict the
Python program constructs. -/
def NodupKeys (l : List (α × β)) : Prop :=
  (l.map Prod.fst).Nodup

instance [DecidableEq α] (l : List (α × β)) : Decidable (NodupKeys l) := by
  unfold NodupKeys; infer_instance

/-! ## The data model -/

/-- A stanza key: the reserved `GLOBAL_STANZA` token, or a stanza name. -/
inductive StanzaKey
  | global
  | name (s : String)
deriving DecidableEq, Repr

/-- `GLOBAL_STANZA = Token()`. -/
def GLOBAL_STANZA : StanzaKey := StanzaKey.global

/-- CPython 2 `≤` between stanza keys: a `Token` instance sorts before every
string because the default mixed-type comparison orders by type name and
`"Token" < "str"`. -/
def keyBle : StanzaKey → StanzaKey → Bool
  | .global, _ => true
  | .name _, .global => false
  | .name s, .name t => strBle s t

/-- A stanza: a dict from key to value. -/
abbrev Stanza := List (String × String)

/-- A configuration document: a dict from stanza key to stanza. -/
abbrev Doc := List (StanzaKey × Stanza)

/-- Python `==` on stanza dicts: same keys bound to same values,
irrespective of insertion order. -/
def stanzaEqb (s t : Stanza) : Bool :=
  s.all (fun kv => dlookup t kv.1 = some kv.2) &&
  t.all (fun kv => dlookup s kv.1 = some kv.2)

/-- Python `==` on documents (dict equality with `==` on the stanza values). -/
def docEqb (a b : Doc) : Bool :=
  a.all (fun kv => match dlookup b kv.1 with
    | some st => stanzaEqb kv.2 st
    | none => false) &&
  b.all (fun kv => match dlookup a kv.1 with
    | some st => stanzaEqb st kv.2
    | none => false)

/-- Comparison of `(StanzaKey, Stanza)` pairs used by `sorted` in
`write_conf`.  Python compares the key objects first; the tie case would
compare the stanza dicts, which is unreachable because document keys are
unique, so it is resolved arbitrarily here. -/
def stzPairBle (a b : StanzaKey × Stanza) : Bool :=
  keyBle a.1 b.1

def DUP_OVERWRITE : String := "overwrite"
def DUP_EXCEPTION : String := "exception"
def DUP_MERGE : String := "merge"

def SMART_CREATE : String := "created"
def SMART_UPDATE : String := "updated"
def SMART_NOCHANGE : String := "unchanged"

/-! ## Merging logic -/

def STANZA_MAGIC_KEY : String := "_stanza"
def STANZA_OP_DROP : String := "<<DROP>>"

/-- Does this stanza carry the stanza-drop marker, i.e. is
`STANZA_MAGIC_KEY in items` with `STANZA_OP_DROP in items[STANZA_MAGIC_KEY]`? -/
def hasDropMarker (items : Stanza) : Bool :=
  match dlookup items STANZA_MAGIC_KEY with
  | some magicOp => strHasSub magicOp STANZA_OP_DROP
  | none => false

/-- One step of `_merge_conf_dicts(base, new_layer)`: merge `new_layer` on top
of `base`.  Sections carrying the drop marker delete the matching section of
`base` (if any) and are themselves skipped; other sections update the
existing section key-by-key or are inserted wholesale. -/
def mergeStep (base newLayer : Doc) : Doc :=
  newLayer.foldl
    (fun b si =>
      if hasDropMarker si.2 then
        if dcontains b si.1 then ddel b si.1 else b
      else if dcontains b si.1 then
        dset b si.1 (dupdate (dgetD b si.1 []) si.2)
      else
        dset b si.1 si.2)
    base

/-- `merge_conf_dicts(*dicts)`: fold the layers left-to-right.  A layer that
arrives while the accumulated `result` is still empty (`if not result`)
becomes the result verbatim; later layers are merged with `mergeStep`.
(The defensive `deepcopy` of each layer is the identity in this pure model.) -/
def mergeConfDicts (dicts : List Doc) : Doc :=
  go [] dicts
where
  go : Doc → List Doc → Doc
    | result, [] => result
    | result, d :: rest =>
      if result = [] then go d rest else go (mergeStep result d) rest

/-- No stanza of the document carries the drop marker as an ordinary key. -/
def markerFreeDoc (d : Doc) : Bool :=
  d.all (fun si => !hasDropMarker si.2)

/-- No stanza of the document carries the drop marker (Prop form). -/
def NoDropDoc (d : Doc) : Prop :=
  markerFreeDoc d = true

instance (d : Doc) : Decidable (NoDropDoc d) := by
  unfold NoDropDoc; infer_instance

/-! ## Core parsing logic -/

/-- The greedy group of `^\[(.*)\]\s*$` applied after an initial `[`:
the longest newline-free prefix that is followed by `]` and then only
whitespace (Python `\s`, which includes `\n`).  Returns `none` when the
regex does not match. -/
def headerGroup : List Char → Option (List Char)
  | [] => none
  | c :: t =>
    match (if c ≠ '\n' then headerGroup t else none) with
    | some g => some (c :: g)
    | none => if c = ']' && t.all isPySpace then some [] else none

/-- `section_re.match(line)`: the captured stanza name of a
`[stanza name]` header line, if the line is one. -/
def headerName (s : String) : Option String :=
  match s.data with
  | '[' :: t => (headerGroup t).map String.mk
  | _ => none

/-- Does `continue_re = ^(.*)\\$` match the line?  On a newline-terminated
raw line (where `$` matches just before the trailing newline) this is
exactly: the line content ends in a backslash. -/
def contMatches (l : String) : Bool :=
  l.data.getLast? = some '\\'

/-- The group of `continue_re`: the line content without its final
backslash. -/
def contGroup (l : String) : String :=
  String.mk l.data.dropLast

/-- `cont_handler` with its accumulated `buf`.  A line matching
`continue_re` contributes its group plus the `"\n"` breaker to the buffer;
other lines are emitted (prefixed with the pending buffer, if any). -/
def contHandlerAux (buf : String) : List String → List String
  | [] => if buf = "" then [] else [buf]
  | l :: t =>
    if contMatches l then
      contHandlerAux (buf ++ contGroup l ++ "\n") t
    else if buf = "" then
      l :: contHandlerAux "" t
    else
      (buf ++ l) :: contHandlerAux "" t

/-- `cont_handler(iterable)` with the default breaker `"\n"`. -/
def contHandler (lines : List String) : List String :=
  contHandlerAux "" lines

/-- `section_reader` with its state: the current section (`none` before any
header) and the buffered lines.  Each input line is first
`rstrip("\r\n")`-ed; header lines flush a non-empty buffer; at end of
stream the final `(section, buf)` pair is emitted if `section or buf` is
truthy (a `None` or empty-string section with an empty buffer is dropped). -/
def sectionReaderAux (sec : Option String) (buf : List String) :
    List String → List (Option String × List String)
  | [] =>
    if (match sec with | some s => s ≠ "" | none => false) || buf ≠ [] then
      [(sec, buf)]
    else []
  | l :: t =>
    let l' := rstripNL l
    match headerName l' with
    | some n =>
      (if buf ≠ [] then [(sec, buf)] else []) ++ sectionReaderAux (some n) [] t
    | none => sectionReaderAux sec (buf ++ [l']) t

/-- `section_reader(stream)`. -/
def sectionReader (lines : List String) : List (Option String × List String) :=
  sectionReaderAux none [] lines

/-- `comments_re.search(entry)` with `comments_re = ^\s*#` (without
`re.MULTILINE`, `^` anchors only at the start of the entry). -/
def isCommentLine (s : String) : Bool :=
  (s.data.dropWhile isPySpace).head? = some '#'

/-- `entry.split("=", 1)`: the parts before and after the first `=`,
provided the entry contains one. -/
def splitFirstEq (s : String) : Option (String × String) :=
  let pre := s.data.takeWhile (fun c => c ≠ '=')
  let rest := s.data.dropWhile (fun c => c ≠ '=')
  match rest with
  | '=' :: post => some (String.mk pre, String.mk post)
  | _ => none

/-- `"#-%06d" % i`: the synthetic ordinal key for a preserved comment. -/
def fmtCommentKey (i : Nat) : String :=
  let s := toString i
  "#-" ++ String.mk (List.replicate (6 - s.length) '0') ++ s

/-- `splitup_kvpairs(lines, ...)`: comments are dropped (or kept under a
synthetic ordinal key), `key = value` lines are split on the first `=`
with the key right-trimmed and the value left-trimmed, and any other
non-blank entry raises in strict mode. -/
def splitupKvpairs (keepComments strict : Bool) (lines : List String) :
    Except String (List (String × String)) :=
  go 0 lines
where
  go : Nat → List String → Except String (List (String × String))
    | _, [] => .ok []
    | i, entry :: t =>
      if isCommentLine entry then
        if keepComments then
          (fun r => (fmtCommentKey i, entry) :: r) <$> go (i + 1) t
        else go (i + 1) t
      else
        match splitFirstEq entry with
        | some (k, v) =>
          (fun r => (rstripPy k, lstripPy v) :: r) <$> go (i + 1) t
        | none =>
          if strict && rstripPy (lstripPy entry) ≠ "" then
            .error ("Unexpected entry:  " ++ entry)
          else go (i + 1) t

/-- Fold one parsed `(key, value)` stream into the stanza `s`, tracking the
`local_stanza` of the current section occurrence for duplicate detection. -/
def parseStanzaPairs (keysLower : Bool) (dupKey : String) :
    Stanza → Stanza → List (String × String) → Except String Stanza
  | s, _, [] => .ok s
  | s, loc, (key, value) :: t =>
    let key := if keysLower then key.toLower else key
    if dcontains loc key then
      if dupKey = DUP_OVERWRITE || dupKey = DUP_MERGE then
        parseStanzaPairs keysLower dupKey (dset s key value)
          (dset loc key value) t
      else if dupKey = DUP_EXCEPTION then
        .error ("Duplicate key '" ++ key ++ "'")
      else
        parseStanzaPairs keysLower dupKey s loc t
    else
      parseStanzaPairs keysLower dupKey (dset s key value)
        (dset loc key value) t

/-- The body of `parse_conf`'s main loop: fold the sections yielded by the
reader into the accumulated document, applying the duplicate-stanza policy. -/
def parseSections (keysLower keepComments strict : Bool)
    (dupStanza dupKey : String) :
    Doc → List (Option String × List String) → Except String Doc
  | sections, [] => .ok sections
  | sections, (secName, entry) :: rest => do
    let sk : StanzaKey :=
      match secName with
      | none => GLOBAL_STANZA
      | some n => StanzaKey.name n
    let start : Except String Stanza :=
      if dcontains sections sk then
        if dupStanza = DUP_OVERWRITE then .ok []
        else if dupStanza = DUP_EXCEPTION then
          .error "Stanza found more than once in config file"
        else if dupStanza = DUP_MERGE then .ok (dgetD sections sk [])
        else .ok (dgetD sections sk [])
      else .ok []
    let s ← start
    let pairs ← splitupKvpairs keepComments strict entry
    let s ← parseStanzaPairs keysLower dupKey s [] pairs
    parseSections keysLower keepComments strict dupStanza dupKey
      (dset sections sk s) rest

/-- `parse_conf(stream, ...)` on a stream given as a list of lines. -/
def parseConf (lines : List String) (keysLower : Bool := false)
    (handleConts : Bool := true) (keepComments : Bool := false)
    (dupStanza : String := DUP_EXCEPTION) (dupKey : String := DUP_OVERWRITE)
    (strict : Bool := false) : Except String Doc :=
  let reader :=
    if handleConts then sectionReader (contHandler lines)
    else sectionReader lines
  parseSections keysLower keepComments strict dupStanza dupKey [] reader

/-- `parse_conf` with all keyword arguments at their default values. -/
def parseConfD (lines : List String) : Except String Doc :=
  parseConf lines

/-! ## Conf file writing logic -/

/-- `value.replace("\n", "\\\n")`: escape embedded newlines to the
trailing-backslash continuation form. -/
def escNL : List Char → List Char
  | [] => []
  | c :: t => if c = '\n' then '\\' :: '\n' :: escNL t else c :: escNL t

/-- One `key = value` line (or raw comment line) of a stanza body
(`key.startswith("#")` selects the synthetic comment keys). -/
def renderKV (kv : String × String) : String :=
  if kv.1.data.head? = some '#' then kv.2 ++ "\n"
  else kv.1 ++ " = " ++ String.mk (escNL kv.2.data) ++ "\n"

/-- `write_stanza_body(items)`: the keys sorted (when sorting is on),
each rendered, followed by the stanza delimiter. -/
def writeStanzaBody (sort : Bool) (stanzaDelim : String) (items : Stanza) :
    String :=
  let its := if sort then sortByB pairBle items else items
  String.join (its.map renderKV) ++ stanzaDelim

/-- The text written for a `[name]` header.  The `.global` case is
unreachable (the GLOBAL stanza is removed from the shallow copy before the
loop); CPython would print the `Token` object's repr there. -/
def headerText : StanzaKey → String
  | .name s => "[" ++ s ++ "]\n"
  | .global => "[<Token>]\n"

/-- `write_conf(stream, conf)`: the GLOBAL stanza body first (no header),
then the remaining stanzas, sorted, each preceded by its header line. -/
def writeConf (conf : Doc) (stanzaDelim : String := "\n")
    (sort : Bool := true) : String :=
  let globalPart :=
    if dcontains conf GLOBAL_STANZA then
      writeStanzaBody sort stanzaDelim (dgetD conf GLOBAL_STANZA [])
    else ""
  let rest := ddel conf GLOBAL_STANZA
  let rest := if sort then sortByB stzPairBle rest else rest
  globalPart ++
    String.join (rest.map (fun sc =>
      headerText sc.1 ++ writeStanzaBody sort stanzaDelim sc.2))

/-- `write_conf` with default arguments. -/
def writeConfD (conf : Doc) : String :=
  writeConf conf

/-- Split a character stream at `'\n'` markers (one chunk more than there
are newlines). -/
def splitNL : List Char → List (List Char)
  | [] => [[]]
  | c :: t =>
    if c = '\n' then [] :: splitNL t
    else
      match splitNL t with
      | h :: r => (c :: h) :: r
      | [] => [[c]]

/-- The lines of a text, as Python file iteration yields them, with the
trailing `"\n"` of each line removed (cf. the stream model): iterating
`"a\nb\n"` gives `["a", "b"]` and iterating `"a\nb"` gives `["a", "b"]`. -/
def linesOf (s : String) : List String :=
  if s = "" then []
  else
    let parts := splitNL s.data
    (if parts.getLast? = some [] then parts.dropLast else parts).map String.mk

/-! ## smart_write_conf and the filesystem model -/

/-- A filesystem: a map from path to file contents. -/
abbrev FileSys := List (String × String)

/-- `fileobj_compare(f1, f2)`: the chunked read loop returns `True` exactly
when the two byte streams are equal. -/
def fileobjCompare (s1 s2 : String) : Bool :=
  s1 = s2

/-- `smart_write_conf(filename, conf)`, modelled as the sequence of
filesystem states after each mutating step, together with the returned
tri-state result.  When the destination exists the new serialization is
staged to a buffer and compared; on a match nothing is touched, otherwise
the temp file is written in full, the destination is unlinked, and the
temp file is renamed onto the destination.  When the destination does not
exist the temp file is written and renamed. -/
def smartWriteConf (filename : String) (conf : Doc) (fs : FileSys)
    (stanzaDelim : String := "\n") (sort : Bool := true)
    (tempSuffix : String := ".tmp") : List FileSys × String :=
  let tempfile := filename ++ tempSuffix
  if dcontains fs filename then
    let temp := writeConf conf stanzaDelim sort
    let fileDiff := fileobjCompare temp (dgetD fs filename "")
    if fileDiff then
      ([], SMART_NOCHANGE)
    else
      let fs1 := dset fs tempfile temp
      let fs2 := ddel fs1 filename
      let fs3 := dset (ddel fs2 tempfile) filename temp
      ([fs1, fs2, fs3], SMART_UPDATE)
  else
    let content := writeConf conf stanzaDelim sort
    let fs1 := dset fs tempfile content
    let fs2 := dset (ddel fs1 tempfile) filename content
    ([fs1, fs2], SMART_CREATE)

/-! ## Diff logic -/

/-- `_cmp_sets(a, b)`: sorted `(a-only, common, b-only)` of the two key
sets. -/
def cmpSets [DecidableEq α] (le : α → α → Bool) (a b : List α) :
    List α × List α × List α :=
  let aOnly := sortByB le ((dedupL a).filter (fun x => ¬ x ∈ b))
  let common := sortByB le ((dedupL a).filter (fun x => x ∈ b))
  let bOnly := sortByB le ((dedupL b).filter (fun x => ¬ x ∈ a))
  (aOnly, common, bOnly)

def DIFF_OP_INSERT : String := "insert"
def DIFF_OP_DELETE : String := "delete"
def DIFF_OP_REPLACE : String := "replace"
def DIFF_OP_EQUAL : String := "equal"

/-- Diff op locations: `DiffGlobal`, `DiffStanza` or `DiffStzKey`. -/
inductive DiffLoc
  | file
  | stanza (s : StanzaKey)
  | key (s : StanzaKey) (k : String)
deriving DecidableEq, Repr

/-- Diff op payloads: a whole document, one stanza, one value, or `None`. -/
inductive DiffVal
  | doc (d : Doc)
  | stz (s : Stanza)
  | str (v : String)
  | null
deriving DecidableEq, Repr

/-- `DiffOp = namedtuple("DiffOp", ("tag", "location", "a", "b"))`. -/
structure DiffOp where
  tag : String
  location : DiffLoc
  a : DiffVal
  b : DiffVal
deriving DecidableEq, Repr

/-- The key-level ops for one stanza present in both documents and sharing
at least one key (level 2 of `compare_cfgs`). -/
def keyLevelOps (stz : StanzaKey) (aS bS : Stanza)
    (kvA kvCommon kvB : List String) : List DiffOp :=
  kvA.map (fun k =>
    DiffOp.mk DIFF_OP_DELETE (DiffLoc.key stz k) DiffVal.null
      (DiffVal.str (dgetD aS k ""))) ++
  kvB.map (fun k =>
    DiffOp.mk DIFF_OP_INSERT (DiffLoc.key stz k)
      (DiffVal.str (dgetD bS k "")) DiffVal.null) ++
  kvCommon.map (fun k =>
    let aV := dgetD aS k ""
    let bV := dgetD bS k ""
    if aV = bV then
      DiffOp.mk DIFF_OP_EQUAL (DiffLoc.key stz k) (DiffVal.str aV)
        (DiffVal.str bV)
    else
      DiffOp.mk DIFF_OP_REPLACE (DiffLoc.key stz k) (DiffVal.str aV)
        (DiffVal.str bV))

/-- The ops contributed by a single stanza name in the stanza-level pass. -/
def stanzaOps (a b : Doc) (stz : StanzaKey) : List DiffOp :=
  if dcontains a stz && dcontains b stz then
    let aS := dgetD a stz []
    let bS := dgetD b stz []
    if stanzaEqb aS bS then
      [DiffOp.mk DIFF_OP_EQUAL (DiffLoc.stanza stz) (DiffVal.stz aS)
        (DiffVal.stz bS)]
    else
      let (kvA, kvCommon, kvB) := cmpSets strBle (keysOf aS) (keysOf bS)
      if kvCommon = [] then
        [DiffOp.mk DIFF_OP_REPLACE (DiffLoc.stanza stz) (DiffVal.stz aS)
          (DiffVal.stz bS)]
      else
        keyLevelOps stz aS bS kvA kvCommon kvB
  else if dcontains a stz then
    [DiffOp.mk DIFF_OP_DELETE (DiffLoc.stanza stz) DiffVal.null
      (DiffVal.stz (dgetD a stz []))]
  else
    [DiffOp.mk DIFF_OP_INSERT (DiffLoc.stanza stz)
      (DiffVal.stz (dgetD b stz [])) DiffVal.null]

/-- The ordered stanza list of the stanza-level pass: the union of both key
sets, with `GLOBAL_STANZA` moved to the front and the whole list then
sorted in place (the GLOBAL token sorts before every string under the
CPython 2 mixed-type order `keyBle`). -/
def allStanzasSorted (a b : Doc) : List StanzaKey :=
  let u := dedupL (keysOf a ++ keysOf b)
  let l := if GLOBAL_STANZA ∈ u then
      GLOBAL_STANZA :: u.filter (fun x => x ≠ GLOBAL_STANZA)
    else u
  sortByB keyBle l

/-- `compare_cfgs(a, b, allow_level0)`. -/
def compareCfgs (a b : Doc) (allowLevel0 : Bool := true) : List DiffOp :=
  let level0 : Option (List DiffOp) :=
    if allowLevel0 then
      let (_, stanzaCommon, _) := cmpSets keyBle (keysOf a) (keysOf b)
      if docEqb a b then
        some [DiffOp.mk DIFF_OP_EQUAL DiffLoc.file (DiffVal.doc a)
          (DiffVal.doc b)]
      else if stanzaCommon = [] then
        some [DiffOp.mk DIFF_OP_REPLACE DiffLoc.file (DiffVal.doc a)
          (DiffVal.doc b)]
      else none
    else none
  match level0 with
  | some ops => ops
  | none => (allStanzasSorted a b).flatMap (stanzaOps a b)

/-! ## Well-formedness and auxiliary predicates used by the theorems -/

/-- A well-formed document, as every Python dict of dicts is: duplicate-free
stanza keys and duplicate-free keys inside each stanza. -/
def WfDoc (d : Doc) : Prop :=
  NodupKeys d ∧ ∀ si ∈ d, NodupKeys si.2

instance (d : Doc) : Decidable (WfDoc d) := by
  unfold WfDoc; infer_instance

/-- The stanza a diff op location refers to, if any. -/
def locStanza : DiffLoc → Option StanzaKey
  | .file => none
  | .stanza s => some s
  | .key s _ => some s

/-- Collapse consecutive duplicates. -/
def destutter [DecidableEq α] : List α → List α
  | [] => []
  | [a] => [a]
  | a :: b :: t => if a = b then destutter (b :: t) else a :: destutter (b :: t)

/-- The sequence of stanzas an op list walks through, with each stanza's
consecutive group collapsed to a single occurrence. -/
def opStanzaSeq (ops : List DiffOp) : List StanzaKey :=
  destutter (ops.filterMap (fun op => locStanza op.location))

/-- `s` contains no newline character. -/
def strNoNL (s : String) : Bool :=
  s.data.all (fun c => c ≠ '\n')

/-- No line of the folded stream is a comment line (the "input containing
no comments" hypothesis of the round-trip property). -/
def noComments (lines : List String) : Prop :=
  ∀ l ∈ contHandler lines, isCommentLine (rstripNL l) = false

instance (lines : List String) : Decidable (noComments lines) := by
  unfold noComments
  infer_instance

/-- The extra conditions on a parsed document under which the
write-then-parse round trip holds.  Each is forced by a concrete
counterexample: a key containing a newline is written verbatim and comes
back split in two; a value ending in a backslash is re-read as a line
continuation that swallows the following line; a rendered `key = value`
whose text matches the header pattern is re-read as a stanza header. -/
def roundTripSafe (d : Doc) : Bool :=
  d.all fun si => si.2.all fun kv =>
    strNoNL kv.1 &&
    kv.2.data.getLast? ≠ some '\\' &&
    headerName (kv.1 ++ " = " ++ kv.2) = none

/-! ## Auxiliary views of the writer output, used to prove the round trip.
These are not part of the embedding of the source; they re-describe the
string `write_conf` produces as a list of physical lines, which the
round-trip proof relates to the parser pipeline. -/

/-- Join lines with a trailing `"\n"` after each. -/
def unlines : List String → String
  | [] => ""
  | l :: t => l ++ "\n" ++ unlines t

/-- The physical lines of one rendered `key = value` entry: each embedded
newline of the value ends the current physical line with a backslash. -/
def kvPhysAux (pre : List Char) : List Char → List String
  | [] => [String.mk pre]
  | c :: t =>
    if c = '\n' then String.mk (pre ++ ['\\']) :: kvPhysAux [] t
    else kvPhysAux (pre ++ [c]) t

def kvPhys (kv : String × String) : List String :=
  kvPhysAux (kv.1.data ++ [' ', '=', ' ']) kv.2.data

/-- The logical (folded) line of one `key = value` entry. -/
def kvLogical (st : Stanza) : List String :=
  (sortByB pairBle st).map (fun kv => kv.1 ++ " = " ++ kv.2)

/-- The logical body lines of one stanza: its entries plus the blank line
produced by the default stanza delimiter. -/
def stanzaBodyLines (st : Stanza) : List String :=
  kvLogical st ++ [""]

/-- The physical lines of one stanza body (entries plus the delimiter). -/
def stanzaPhys (st : Stanza) : List String :=
  (sortByB pairBle st).flatMap kvPhys ++ [""]

/-- The header line of a stanza as written (without the newline). -/
def headerLineOf : StanzaKey → String
  | .name s => "[" ++ s ++ "]"
  | .global => "[<Token>]"

/-- The physical lines of one named-stanza chunk. -/
def chunkPhys (si : StanzaKey × Stanza) : List String :=
  headerLineOf si.1 :: stanzaPhys si.2

/-- All physical lines of `write_conf` output. -/
def physLines (conf : Doc) : List String :=
  (if dcontains conf GLOBAL_STANZA then
    stanzaPhys (dgetD conf GLOBAL_STANZA []) else []) ++
  (sortByB stzPairBle (ddel conf GLOBAL_STANZA)).flatMap chunkPhys

/-- The well-formedness invariants every key parsed by `splitup_kvpairs`
satisfies: right-trimmed, free of `=`, and not comment-like. -/
def KeyInv (k : String) : Prop :=
  rstripPy k = k ∧ ('=' ∉ k.data) ∧
    (k.data.dropWhile isPySpace).head? ≠ some '#'

/-- The invariants every parsed value satisfies: left-trimmed and not
ending in a newline or carriage return (the logical line was
`rstrip("\r\n")`-ed). -/
def ValInv (v : String) : Prop :=
  lstripPy v = v ∧ v.data.getLast? ≠ some '\n' ∧
    v.data.getLast? ≠ some '\r'

/-- The invariant of parsed stanza keys: names captured by the header
regex contain no newline. -/
def NameInv : StanzaKey → Prop
  | .global => True
  | .name s => '\n' ∉ s.data

/-- All invariants `parse_conf` (with default arguments) guarantees about
its result. -/
def DocInv (D : Doc) : Prop :=
  WfDoc D ∧ ∀ si ∈ D, NameInv si.1 ∧
    ∀ kv ∈ si.2, KeyInv kv.1 ∧ ValInv kv.2

/-- The text inside the brackets of the header line written for a stanza
key (so `headerLineOf k = "[" ++ secNameOf k ++ "]"`). -/
def secNameOf : StanzaKey → String
  | .name s => s
  | .global => "<Token>"

/-- The logical lines of one named-stanza chunk (header plus folded
body). -/
def chunkLogical (si : StanzaKey × Stanza) : List String :=
  headerLineOf si.1 :: stanzaBodyLines si.2

/-- All logical lines of `write_conf` output, i.e. the physical lines
after continuation folding. -/
def logicalLines (conf : Doc) : List String :=
  (if dcontains conf GLOBAL_STANZA then
    stanzaBodyLines (dgetD conf GLOBAL_STANZA []) else []) ++
  (sortByB stzPairBle (ddel conf GLOBAL_STANZA)).flatMap chunkLogical

/-- The section/body chunks `section_reader` recovers from the logical
lines of `write_conf` output. -/
def sectionsView (conf : Doc) : List (Option String × List String) :=
  (if dcontains conf GLOBAL_STANZA then
    [((none : Option String), stanzaBodyLines (dgetD conf GLOBAL_STANZA []))]
   else []) ++
  (sortByB stzPairBle (ddel conf GLOBAL_STANZA)).map
    (fun si => (some (secNameOf si.1), stanzaBodyLines si.2))

/-- A body line as `section_reader` sees it: unchanged by
`rstrip("\r\n")` and not matching the header pattern. -/
def BodyLineOK (l : String) : Prop :=
  rstripNL l = l ∧ headerName l = none

/-- The document `parse_conf` rebuilds from the sections of `write_conf`
output: the same stanzas in writer order, each with its pairs sorted. -/
def parsedView (conf : Doc) : Doc :=
  (if dcontains conf GLOBAL_STANZA then
    [(GLOBAL_STANZA, sortByB pairBle (dgetD conf GLOBAL_STANZA []))]
   else []) ++
  (sortByB stzPairBle (ddel conf GLOBAL_STANZA)).map
    (fun si => (si.1, sortByB pairBle si.2))

/-- A written stanza chunk `section_reader` reads back faithfully: its
header name is newline-free and every body line is a plain body line. -/
def GoodChunk (si : StanzaKey × Stanza) : Prop :=
  '\n' ∉ (secNameOf si.1).data ∧ ∀ l ∈ stanzaBodyLines si.2, BodyLineOK l

/-- A `key = value` entry whose physical lines fold back into its single
logical line: the key holds no newline and the rendered line ends in
neither a backslash nor a newline. -/
def KVLineOK (kv : String × String) : Prop :=
  '\n' ∉ kv.1.data ∧
  (kv.1.data ++ [' ', '=', ' '] ++ kv.2.data).getLast? ≠ some '\\' ∧
  (kv.1.data ++ [' ', '=', ' '] ++ kv.2.data).getLast? ≠ some '\n'

/-! ## Concrete example documents used by witnesses -/

def wDocA : Doc := [(StanzaKey.global, [("a", "1")])]

def wDocB : Doc := [(StanzaKey.name "s", [("a", "2"), ("b", "3")])]

def wDocC : Doc :=
  [(StanzaKey.name "s", [("b", "4")]), (StanzaKey.name "t", [("c", "5")])]

def wDocIdem : Doc :=
  [(StanzaKey.global, [("a", "1")]),
    (StanzaKey.name "x", [("k", "v"), ("l", "w")])]

def wDropStanza : Stanza := [("_stanza", "<<DROP>>"), ("k", "v")]

def wDocBase : Doc := [(StanzaKey.name "base", [("b", "2")])]

def wDocLayer : Doc :=
  [(StanzaKey.name "gone", wDropStanza),
    (StanzaKey.name "kept", [("a", "1")])]

def wLayers : List Doc :=
  [[(StanzaKey.name "s", [("k", "v")])],
   [(StanzaKey.name "s", [("_stanza", "x<<DROP>>y"), ("other", "1")])]]

/-- Concrete diff inputs for the C2 witness. -/
def wCmpA : Doc :=
  [(StanzaKey.global, [("x", "1")]), (StanzaKey.name "b", [("k", "1")])]

def wCmpB : Doc :=
  [(StanzaKey.name "a", [("j", "2")]), (StanzaKey.name "b", [("k", "2")])]

/-- The spec's diff key-level example, document A: `[web] port=80`. -/
def wDiffA : Doc := [(StanzaKey.name "web", [("port", "80")])]

/-- The spec's diff key-level example, document B:
`[web] port=443, timeout=30`. -/
def wDiffB : Doc :=
  [(StanzaKey.name "web", [("port", "443"), ("timeout", "30")])]

/-! # Lemmas about the dict model -/

theorem dlookup_dset_self [DecidableEq α] (l : List (α × β)) (k : α) (v : β) :
    dlookup (dset l k v) k = some v := by
  induction l with
  | nil => simp [dset, dlookup]
  | cons kv t ih =>
    obtain ⟨k', v'⟩ := kv
    by_cases h : k' = k <;> simp [dset, dlookup, h, ih]

theorem dlookup_dset_ne [DecidableEq α] (l : List (α × β)) {k k' : α} (v : β)
    (h : k' ≠ k) : dlookup (dset l k' v) k = dlookup l k := by
  induction l with
  | nil => simp [dset, dlookup, h]
  | cons kv t ih =>
    obtain ⟨a, b⟩ := kv
    by_cases ha : a = k' <;> simp [dset, dlookup, ha, ih]
    · subst ha; simp [dlookup, h]

theorem dlookup_mem [DecidableEq α] {l : List (α × β)} {k : α} {v : β}
    (h : dlookup l k = some v) : (k, v) ∈ l := by
  induction l with
  | nil => simp [dlookup] at h
  | cons kv t ih =>
    obtain ⟨a, b⟩ := kv
    by_cases ha : a = k
    · subst ha
      simp [dlookup] at h
      simp [h]
    · simp [dlookup, ha] at h
      exact List.mem_cons_of_mem _ (ih h)

theorem dlookup_eq_none [DecidableEq α] {l : List (α × β)} {k : α}
    (h : k ∉ keysOf l) : dlookup l k = none := by
  induction l with
  | nil => rfl
  | cons kv t ih =>
    obtain ⟨a, b⟩ := kv
    unfold keysOf at h
    simp only [List.map_cons, List.mem_cons, not_or] at h
    have ha : a ≠ k := fun e => h.1 e.symm
    simp only [dlookup, if_neg ha]
    exact ih h.2

theorem mem_keys_of_dlookup [DecidableEq α] {l : List (α × β)} {k : α} {v : β}
    (h : dlookup l k = some v) : k ∈ keysOf l :=
  List.mem_map_of_mem Prod.fst (dlookup_mem h)

theorem mem_dlookup [DecidableEq α] {l : List (α × β)} {k : α} {v : β}
    (hn : NodupKeys l) (h : (k, v) ∈ l) : dlookup l k = some v := by
  induction l with
  | nil => simp at h
  | cons kv t ih =>
    obtain ⟨a, b⟩ := kv
    unfold NodupKeys at hn
    simp only [List.map_cons, List.nodup_cons] at hn
    rcases List.mem_cons.mp h with h1 | h2
    · injection h1 with hka hvb
      subst hka; subst hvb
      simp [dlookup]
    · by_cases ha : a = k
      · subst ha
        exact absurd (List.mem_map_of_mem Prod.fst h2) hn.1
      · simp only [dlookup, if_neg ha]
        exact ih hn.2 h2

theorem dset_eq_self [DecidableEq α] {l : List (α × β)} {k : α} {v : β}
    (h : dlookup l k = some v) : dset l k v = l := by
  induction l with
  | nil => simp [dlookup] at h
  | cons kv t ih =>
    obtain ⟨a, b⟩ := kv
    by_cases ha : a = k
    · subst ha
      simp [dlookup] at h
      subst h
      simp [dset]
    · simp only [dlookup, if_neg ha] at h
      simp [dset, ha, ih h]

theorem dcontains_iff [DecidableEq α] (l : List (α × β)) (k : α) :
    dcontains l k = true ↔ k ∈ keysOf l := by
  induction l with
  | nil => simp [dcontains, dlookup, keysOf]
  | cons kv t ih =>
    obtain ⟨a, b⟩ := kv
    by_cases ha : a = k
    · subst ha
      simp [dcontains, dlookup, keysOf]
    · have hka : ¬ k = a := fun e => ha e.symm
      unfold keysOf at ih ⊢
      simp only [dcontains, dlookup, if_neg ha, List.map_cons, List.mem_cons,
        hka, false_or]
      exact ih

theorem dcontains_of_mem [DecidableEq α] {l : List (α × β)} {kv : α × β}
    (h : kv ∈ l) : dcontains l kv.1 = true := by
  rw [dcontains_iff]
  exact List.mem_map_of_mem Prod.fst h

theorem mem_ddel [DecidableEq α] {l : List (α × β)} {k : α} {kv : α × β}
    (h : kv ∈ ddel l k) : kv ∈ l := by
  induction l with
  | nil => simp [ddel] at h
  | cons hd t ih =>
    obtain ⟨a, b⟩ := hd
    by_cases ha : a = k
    · simp only [ddel, if_pos ha] at h
      exact List.mem_cons_of_mem _ h
    · simp only [ddel, if_neg ha, List.mem_cons] at h
      rcases h with h1 | h2
      · simp [h1]
      · exact List.mem_cons_of_mem _ (ih h2)

theorem all_ddel [DecidableEq α] {p : α × β → Bool} {l : List (α × β)}
    (hl : l.all p = true) (k : α) : (ddel l k).all p = true := by
  rw [List.all_eq_true] at hl ⊢
  exact fun kv h => hl kv (mem_ddel h)

theorem mem_dset [DecidableEq α] {l : List (α × β)} {k : α} {v : β}
    {kv : α × β} (h : kv ∈ dset l k v) : kv ∈ l ∨ kv = (k, v) := by
  induction l with
  | nil => simp [dset] at h; simp [h]
  | cons hd t ih =>
    obtain ⟨a, b⟩ := hd
    by_cases ha : a = k
    · simp only [dset, if_pos ha, List.mem_cons] at h
      rcases h with h1 | h2
      · right; simp [h1]
      · left; exact List.mem_cons_of_mem _ h2
    · simp only [dset, if_neg ha, List.mem_cons] at h
      rcases h with h1 | h2
      · left; simp [h1]
      · rcases ih h2 with h3 | h4
        · left; exact List.mem_cons_of_mem _ h3
        · right; exact h4

theorem all_dset [DecidableEq α] {p : α × β → Bool} {l : List (α × β)}
    (hl : l.all p = true) {k : α} {v : β} (hv : p (k, v) = true) :
    (dset l k v).all p = true := by
  rw [List.all_eq_true] at hl ⊢
  intro kv h
  rcases mem_dset h with h1 | h2
  · exact hl kv h1
  · rw [h2]; exact hv

theorem mem_keys_dset [DecidableEq α] {l : List (α × β)} {k x : α} {v : β}
    (h : x ∈ keysOf (dset l k v)) : x ∈ keysOf l ∨ x = k := by
  unfold keysOf at h ⊢
  simp only [List.mem_map] at h ⊢
  obtain ⟨kv, hkv, hx⟩ := h
  rcases mem_dset hkv with h1 | h2
  · exact Or.inl ⟨kv, h1, hx⟩
  · right
    rw [← hx, h2]

theorem nodupKeys_dset [DecidableEq α] {l : List (α × β)} (hn : NodupKeys l)
    (k : α) (v : β) : NodupKeys (dset l k v) := by
  induction l with
  | nil => simp [dset, NodupKeys]
  | cons kv t ih =>
    obtain ⟨a, b⟩ := kv
    unfold NodupKeys at hn ⊢
    simp only [List.map_cons, List.nodup_cons] at hn
    by_cases ha : a = k
    · subst ha
      simp only [dset, if_true, eq_self_iff_true, List.map_cons,
        List.nodup_cons]
      exact hn
    · simp only [dset, if_neg ha, List.map_cons, List.nodup_cons]
      refine ⟨fun hmem => ?_, ih hn.2⟩
      rcases mem_keys_dset hmem with h1 | h1
      · exact hn.1 h1
      · exact ha h1

theorem keysOf_ddel_sub [DecidableEq α] {l : List (α × β)} {k x : α}
    (h : x ∈ keysOf (ddel l k)) : x ∈ keysOf l := by
  unfold keysOf at h ⊢
  simp only [List.mem_map] at h ⊢
  obtain ⟨kv, hkv, hx⟩ := h
  exact ⟨kv, mem_ddel hkv, hx⟩

theorem nodupKeys_ddel [DecidableEq α] {l : List (α × β)} (hn : NodupKeys l)
    (k : α) : NodupKeys (ddel l k) := by
  induction l with
  | nil => simp [ddel, NodupKeys]
  | cons kv t ih =>
    obtain ⟨a, b⟩ := kv
    unfold NodupKeys at hn ⊢
    simp only [List.map_cons, List.nodup_cons] at hn
    by_cases ha : a = k
    · simp only [ddel, if_pos ha]
      exact hn.2
    · simp only [ddel, if_neg ha, List.map_cons, List.nodup_cons]
      exact ⟨fun hx => hn.1 (keysOf_ddel_sub hx), ih hn.2⟩

theorem dlookup_ddel_ne [DecidableEq α] (l : List (α × β)) {k k' : α}
    (h : k' ≠ k) : dlookup (ddel l k') k = dlookup l k := by
  induction l with
  | nil => simp [ddel]
  | cons kv t ih =>
    obtain ⟨a, b⟩ := kv
    by_cases ha : a = k'
    · subst ha
      simp [ddel, dlookup, h]
    · simp [ddel, ha, dlookup, ih]

theorem dupdate_cons [DecidableEq α] (b : List (α × β)) (kv : α × β)
    (t : List (α × β)) : dupdate b (kv :: t) = dupdate (dset b kv.1 kv.2) t :=
  rfl

theorem dlookup_dupdate_of_none [DecidableEq α] {n : List (α × β)}
    (b : List (α × β)) {k : α} (h : dlookup n k = none) :
    dlookup (dupdate b n) k = dlookup b k := by
  induction n generalizing b with
  | nil => rfl
  | cons kv t ih =>
    obtain ⟨a, v⟩ := kv
    by_cases ha : a = k
    · subst ha; simp [dlookup] at h
    · simp [dlookup, ha] at h
      rw [dupdate_cons, ih _ h]
      exact dlookup_dset_ne b v ha

theorem dlookup_dupdate_of_some [DecidableEq α] {n : List (α × β)}
    (b : List (α × β)) {k : α} {v : β} (hn : NodupKeys n)
    (h : dlookup n k = some v) : dlookup (dupdate b n) k = some v := by
  induction n generalizing b with
  | nil => simp [dlookup] at h
  | cons kv t ih =>
    obtain ⟨a, w⟩ := kv
    unfold NodupKeys at hn
    simp only [List.map_cons, List.nodup_cons] at hn
    by_cases ha : a = k
    · subst ha
      simp [dlookup] at h
      subst h
      rw [dupdate_cons]
      rw [dlookup_dupdate_of_none _ (dlookup_eq_none hn.1)]
      exact dlookup_dset_self b a w
    · simp only [dlookup, if_neg ha] at h
      rw [dupdate_cons]
      exact ih _ hn.2 h

theorem nodupKeys_dupdate [DecidableEq α] {b : List (α × β)}
    (n : List (α × β)) (hb : NodupKeys b) : NodupKeys (dupdate b n) := by
  induction n generalizing b with
  | nil => exact hb
  | cons kv t ih =>
    rw [dupdate_cons]
    exact ih (nodupKeys_dset hb kv.1 kv.2)

theorem dupdate_eq_self [DecidableEq α] {st : List (α × β)}
    {l : List (α × β)} (h : ∀ kv ∈ l, dlookup st kv.1 = some kv.2) :
    dupdate st l = st := by
  induction l with
  | nil => rfl
  | cons kv t ih =>
    rw [dupdate_cons, dset_eq_self (h kv (by simp))]
    exact ih fun kv' h' => h kv' (List.mem_cons_of_mem _ h')

theorem dupdate_self [DecidableEq α] {st : List (α × β)}
    (hn : NodupKeys st) : dupdate st st = st :=
  dupdate_eq_self fun _kv h => mem_dlookup hn h

/-! # Lemmas about `==`, marker-freeness and the merge engine -/

theorem stanzaEqb_refl {st : Stanza} (hn : NodupKeys st) :
    stanzaEqb st st = true := by
  unfold stanzaEqb
  rw [Bool.and_self, List.all_eq_true]
  intro kv h
  simp only [decide_eq_true_eq]
  exact mem_dlookup hn h

theorem docEqb_refl {d : Doc} (h : WfDoc d) : docEqb d d = true := by
  unfold docEqb
  rw [Bool.and_eq_true, List.all_eq_true, List.all_eq_true]
  constructor
  · intro si hm
    rw [mem_dlookup h.1 hm]
    exact stanzaEqb_refl (h.2 si hm)
  · intro si hm
    rw [mem_dlookup h.1 hm]
    exact stanzaEqb_refl (h.2 si hm)

theorem markerFree_iff {d : Doc} :
    markerFreeDoc d = true ↔ ∀ si ∈ d, hasDropMarker si.2 = false := by
  unfold markerFreeDoc
  rw [List.all_eq_true]
  constructor
  · intro h si hm
    have := h si hm
    simpa using this
  · intro h si hm
    simp [h si hm]

/-- The drop marker of `dupdate st items` is decided by `items` if it binds
`_stanza`, and by `st` otherwise. -/
theorem hasDropMarker_dupdate {st items : Stanza} (hn : NodupKeys items)
    (hst : hasDropMarker st = false) (hit : hasDropMarker items = false) :
    hasDropMarker (dupdate st items) = false := by
  unfold hasDropMarker at *
  cases h : dlookup items STANZA_MAGIC_KEY with
  | some v =>
    rw [dlookup_dupdate_of_some st hn h]
    rw [h] at hit
    exact hit
  | none =>
    rw [dlookup_dupdate_of_none st h]
    exact hst

/-- Merging any layer with duplicate-free stanzas onto a marker-free base
yields a marker-free result: marker-carrying sections are consumed (they
delete or are skipped), and sections merged or inserted carry no marker. -/
theorem markerFree_mergeStep {base layer : Doc}
    (hb : markerFreeDoc base = true)
    (hw : ∀ si ∈ layer, NodupKeys si.2) :
    markerFreeDoc (mergeStep base layer) = true := by
  unfold mergeStep
  suffices h : ∀ (l : List (StanzaKey × Stanza)) (b : Doc),
      (∀ si ∈ l, NodupKeys si.2) → markerFreeDoc b = true →
      markerFreeDoc (l.foldl
        (fun b si =>
          if hasDropMarker si.2 then
            if dcontains b si.1 then ddel b si.1 else b
          else if dcontains b si.1 then
            dset b si.1 (dupdate (dgetD b si.1 []) si.2)
          else
            dset b si.1 si.2) b) = true by
    exact h layer base hw hb
  intro l
  induction l with
  | nil => intro b _ hb; exact hb
  | cons si t ih =>
    intro b hwl hb
    rw [List.foldl_cons]
    refine ih _ (fun x hx => hwl x (List.mem_cons_of_mem _ hx)) ?_
    by_cases hm : hasDropMarker si.2
    · simp only [hm, if_true]
      by_cases hc : dcontains b si.1 <;> simp only [hc, if_true, if_false]
      · exact markerFree_iff.mpr fun x hx =>
          markerFree_iff.mp hb x (mem_ddel hx)
      · exact hb
    · simp only [hm, if_false, Bool.false_eq_true]
      by_cases hc : dcontains b si.1 <;>
        simp only [hc, if_true, if_false]
      · rw [markerFree_iff] at hb ⊢
        intro x hx
        rcases mem_dset hx with h1 | h1
        · exact hb x h1
        · subst h1
          cases hget : dlookup b si.1 with
          | none =>
            unfold dcontains at hc
            rw [hget] at hc
            simp at hc
          | some st =>
            have hstf : hasDropMarker st = false :=
              hb _ (dlookup_mem hget)
            show hasDropMarker (dupdate (dgetD b si.1 []) si.2) = false
            unfold dgetD
            rw [hget]
            exact hasDropMarker_dupdate (hwl si (by simp))
              hstf (Bool.not_eq_true _ ▸ by simpa using hm)
      · rw [markerFree_iff] at hb ⊢
        intro x hx
        rcases mem_dset hx with h1 | h1
        · exact hb x h1
        · subst h1
          simpa using hm

/-- The stanzas of a `mergeStep` are duplicate-free when those of both
inputs are, and the stanza keys stay duplicate-free. -/
theorem wf_mergeStep {base layer : Doc} (hb : WfDoc base) (hl : WfDoc layer) :
    WfDoc (mergeStep base layer) := by
  unfold mergeStep
  suffices h : ∀ (l : List (StanzaKey × Stanza)) (b : Doc),
      (∀ si ∈ l, NodupKeys si.2) → WfDoc b →
      WfDoc (l.foldl
        (fun b si =>
          if hasDropMarker si.2 then
            if dcontains b si.1 then ddel b si.1 else b
          else if dcontains b si.1 then
            dset b si.1 (dupdate (dgetD b si.1 []) si.2)
          else
            dset b si.1 si.2) b) by
    exact h layer base hl.2 hb
  intro l
  induction l with
  | nil => intro b _ hb; exact hb
  | cons si t ih =>
    intro b hwl hb
    rw [List.foldl_cons]
    refine ih _ (fun x hx => hwl x (List.mem_cons_of_mem _ hx)) ?_
    by_cases hm : hasDropMarker si.2
    · simp only [hm, if_true]
      by_cases hc : dcontains b si.1 <;> simp only [hc, if_true, if_false]
      · exact ⟨nodupKeys_ddel hb.1 _, fun x hx => hb.2 x (mem_ddel hx)⟩
      · exact hb
    · simp only [hm, if_false, Bool.false_eq_true]
      by_cases hc : dcontains b si.1 <;>
        simp only [hc, if_true, if_false]
      · refine ⟨nodupKeys_dset hb.1 _ _, fun x hx => ?_⟩
        rcases mem_dset hx with h1 | h1
        · exact hb.2 x h1
        · subst h1
          show NodupKeys (dupdate (dgetD b si.1 []) si.2)
          cases hget : dlookup b si.1 with
          | none =>
            unfold dcontains at hc
            rw [hget] at hc
            simp at hc
          | some st =>
            unfold dgetD
            rw [hget]
            exact nodupKeys_dupdate si.2 (hb.2 _ (dlookup_mem hget))
      · refine ⟨nodupKeys_dset hb.1 _ _, fun x hx => ?_⟩
        rcases mem_dset hx with h1 | h1
        · exact hb.2 x h1
        · subst h1
          exact hwl si (by simp)

theorem wf_nil : WfDoc [] := by
  constructor <;> simp [NodupKeys]

theorem wf_mergeConfDicts {ds : List Doc} (h : ∀ d ∈ ds, WfDoc d) :
    WfDoc (mergeConfDicts ds) := by
  unfold mergeConfDicts
  suffices hgo : ∀ (l : List Doc) (r : Doc), (∀ d ∈ l, WfDoc d) → WfDoc r →
      WfDoc (mergeConfDicts.go r l) by
    exact hgo ds [] h wf_nil
  intro l
  induction l with
  | nil => intro r _ hr; exact hr
  | cons d t ih =>
    intro r hl hr
    unfold mergeConfDicts.go
    by_cases hre : r = [] <;> simp only [hre, if_true, if_false]
    · exact ih d (fun x hx => hl x (List.mem_cons_of_mem _ hx))
        (hl d (by simp))
    · exact ih _ (fun x hx => hl x (List.mem_cons_of_mem _ hx))
        (wf_mergeStep hr (hl d (by simp)))

theorem mergeGo_markerFree (ds : List Doc) (r : Doc)
    (hr : markerFreeDoc r = true)
    (hw : ∀ d ∈ ds, ∀ si ∈ d, NodupKeys si.2)
    (h : ∀ i (hi : i < ds.length), mergeConfDicts.go r (ds.take i) = [] →
      markerFreeDoc (ds.get ⟨i, hi⟩) = true) :
    markerFreeDoc (mergeConfDicts.go r ds) = true := by
  induction ds generalizing r with
  | nil => exact hr
  | cons d t ih =>
    unfold mergeConfDicts.go
    by_cases hre : r = [] <;> simp only [hre, if_true, if_false]
    · have hd : markerFreeDoc d = true := by
        refine h 0 (by simp) ?_
        simp [mergeConfDicts.go, hre]
      refine ih d hd (fun x hx => hw x (List.mem_cons_of_mem _ hx)) ?_
      intro i hi hE
      have := h (i + 1) (by simpa using Nat.succ_lt_succ hi) ?_
      · simpa using this
      · simpa [mergeConfDicts.go, hre] using hE
    · refine ih (mergeStep r d)
        (markerFree_mergeStep hr (hw d (by simp)))
        (fun x hx => hw x (List.mem_cons_of_mem _ hx)) ?_
      intro i hi hE
      have := h (i + 1) (by simpa using Nat.succ_lt_succ hi) ?_
      · simpa using this
      · simpa [mergeConfDicts.go, hre] using hE

/-- Claim C1 (counterexample): for the single-document list whose document
carries the stanza-drop marker, `merge_conf_dicts` returns the document
verbatim — the marker key `_stanza` with value `<<DROP>>` appears as an
ordinary key of stanza `x` in the merged output, contradicting the claim
that the marker is stripped or never retained, including for the first
document of the list. -/
theorem C1_counterexample :
    markerFreeDoc (mergeConfDicts
      [[(StanzaKey.name "x", [("_stanza", "<<DROP>>")])]]) = false ∧
    dlookup (dgetD (mergeConfDicts
        [[(StanzaKey.name "x", [("_stanza", "<<DROP>>")])]])
        (StanzaKey.name "x") []) "_stanza" = some "<<DROP>>" := by
  constructor <;> decide

/-- Claim C1 (amended): the drop marker is stripped from every layer merged
onto a nonempty accumulated result, but a layer that is assigned directly
because the accumulator is empty at that point — in particular the first
document — retains its markers.  Hence the merged output is marker-free
provided each document taken while the accumulated prefix merge is empty is
itself marker-free (all stanzas being Python dicts with duplicate-free
keys). -/
theorem C1_amended (ds : List Doc)
    (hw : ∀ d ∈ ds, ∀ si ∈ d, NodupKeys si.2)
    (h : ∀ i (hi : i < ds.length), mergeConfDicts (ds.take i) = [] →
      markerFreeDoc (ds.get ⟨i, hi⟩) = true) :
    markerFreeDoc (mergeConfDicts ds) = true := by
  unfold mergeConfDicts at h ⊢
  exact mergeGo_markerFree ds [] rfl hw h

/-- Witness for C1: a two-layer merge where the second layer drop-marks the
stanza `s` of the first; the amended theorem applies and the merged output
is marker-free. -/
theorem C1_witness : markerFreeDoc (mergeConfDicts wLayers) = true := by
  apply C1_amended
  · decide
  · intro i hi hE
    simp only [wLayers, List.length_cons, List.length_nil] at hi
    interval_cases i
    · rw [show wLayers.get ⟨0, by decide⟩ =
        [(StanzaKey.name "s", [("k", "v")])] from rfl]
      decide
    · exact absurd hE (by decide)

theorem mergeConfDicts_three (A B C : Doc) :
    mergeConfDicts [A, B, C] = mergeConfDicts [mergeConfDicts [A, B], C] := by
  by_cases hA : A = []
  · subst hA
    by_cases hB : B = [] <;> simp [mergeConfDicts, mergeConfDicts.go, hB]
  · by_cases hM : mergeStep A B = [] <;>
      simp [mergeConfDicts, mergeConfDicts.go, hA, hM]

/-- Claim C5 (confirmed): for well-formed documents `A`, `B`, `C` without
drop-sentinels, merging `[A, B, C]` equals merging `[merge([A, B]), C]`
(the fold is in fact syntactically associative left-to-right; the
hypotheses make the Python `==` comparison reflexive). -/
theorem C5_merge_assoc (A B C : Doc) (hA : WfDoc A) (hB : WfDoc B)
    (hC : WfDoc C) (hdA : NoDropDoc A) (hdB : NoDropDoc B)
    (hdC : NoDropDoc C) :
    docEqb (mergeConfDicts [A, B, C])
      (mergeConfDicts [mergeConfDicts [A, B], C]) = true := by
  rw [mergeConfDicts_three]
  have hAB : WfDoc (mergeConfDicts [A, B]) := by
    refine wf_mergeConfDicts ?_
    intro x hx
    rcases List.mem_cons.mp hx with h1 | h2
    · subst h1; exact hA
    · rcases List.mem_cons.mp h2 with h3 | h4
      · subst h3; exact hB
      · simp at h4
  refine docEqb_refl (wf_mergeConfDicts ?_)
  intro x hx
  rcases List.mem_cons.mp hx with h1 | h2
  · subst h1; exact hAB
  · rcases List.mem_cons.mp h2 with h3 | h4
    · subst h3; exact hC
    · simp at h4

/-- Witness for C5: three concrete well-formed, drop-free documents. -/
theorem C5_witness :
    (WfDoc wDocA ∧ WfDoc wDocB ∧ WfDoc wDocC ∧
      NoDropDoc wDocA ∧ NoDropDoc wDocB ∧ NoDropDoc wDocC) ∧
    docEqb (mergeConfDicts [wDocA, wDocB, wDocC])
      (mergeConfDicts [mergeConfDicts [wDocA, wDocB], wDocC]) = true :=
  ⟨⟨by decide, by decide, by decide, by decide, by decide, by decide⟩,
    C5_merge_assoc wDocA wDocB wDocC (by decide) (by decide) (by decide)
      (by decide) (by decide) (by decide)⟩

theorem mergeStep_self {A : Doc} (hwf : WfDoc A) (hnd : NoDropDoc A) :
    mergeStep A A = A := by
  unfold mergeStep
  suffices h : ∀ (l : List (StanzaKey × Stanza)), (∀ si ∈ l, si ∈ A) →
      l.foldl
        (fun b si =>
          if hasDropMarker si.2 then
            if dcontains b si.1 then ddel b si.1 else b
          else if dcontains b si.1 then
            dset b si.1 (dupdate (dgetD b si.1 []) si.2)
          else
            dset b si.1 si.2) A = A by
    exact h A fun _ hx => hx
  intro l
  induction l with
  | nil => intro _; rfl
  | cons si t ih =>
    intro hmem
    rw [List.foldl_cons]
    have hsiA : si ∈ A := hmem si (by simp)
    have hsiA' : (si.1, si.2) ∈ A := by rwa [Prod.mk.eta]
    have hm : hasDropMarker si.2 = false := markerFree_iff.mp hnd si hsiA
    have hc : dcontains A si.1 = true := dcontains_of_mem hsiA
    have hlk : dlookup A si.1 = some si.2 := mem_dlookup hwf.1 hsiA'
    have hbody :
        (if hasDropMarker si.2 then
          if dcontains A si.1 then ddel A si.1 else A
        else if dcontains A si.1 then
          dset A si.1 (dupdate (dgetD A si.1 []) si.2)
        else
          dset A si.1 si.2) = A := by
      simp only [hm, Bool.false_eq_true, if_false, hc, if_true]
      have hupd : dupdate (dgetD A si.1 []) si.2 = si.2 := by
        unfold dgetD
        rw [hlk]
        exact dupdate_self (hwf.2 si hsiA)
      rw [hupd, dset_eq_self hlk]
    rw [hbody]
    exact ih fun x hx => hmem x (List.mem_cons_of_mem _ hx)

/-- Claim C6 (counterexample): merge idempotence fails without restriction
on `A`'s content: for `A` whose stanza `s` carries the drop marker,
merging `[A, A]` deletes `s` from the copy of `A` and returns the empty
document, which is not `==` to `A`. -/
theorem C6_counterexample :
    docEqb
      (mergeConfDicts [[(StanzaKey.name "s", [("_stanza", "<<DROP>>")])],
        [(StanzaKey.name "s", [("_stanza", "<<DROP>>")])]])
      [(StanzaKey.name "s", [("_stanza", "<<DROP>>")])] = false := by
  decide

/-- Claim C6 (amended): `merge([A, A]) == A` for every well-formed document
`A` that carries no drop-sentinel. -/
theorem C6_amended (A : Doc) (hwf : WfDoc A) (hnd : NoDropDoc A) :
    docEqb (mergeConfDicts [A, A]) A = true := by
  by_cases hA : A = []
  · subst hA; decide
  · have hmm : mergeConfDicts [A, A] = mergeStep A A := by
      simp [mergeConfDicts, mergeConfDicts.go, hA]
    rw [hmm, mergeStep_self hwf hnd]
    exact docEqb_refl hwf

/-- Witness for C6: a concrete two-stanza drop-free document. -/
theorem C6_witness :
    (WfDoc wDocIdem ∧ NoDropDoc wDocIdem) ∧
    docEqb (mergeConfDicts [wDocIdem, wDocIdem]) wDocIdem = true :=
  ⟨⟨by decide, by decide⟩, C6_amended wDocIdem (by decide) (by decide)⟩

/-- Claim C10 (confirmed): when a later layer drop-marks a stanza that is
absent from the accumulated base, `_merge_conf_dicts` leaves no entry for
that stanza: the marked section is skipped outright and its other keys are
never inserted. -/
theorem C10_drop_absent (base layer : Doc) (s : StanzaKey) (items : Stanza)
    (hn : NodupKeys layer) (hl : dlookup layer s = some items)
    (hm : hasDropMarker items = true) (hb : dlookup base s = none) :
    dlookup (mergeStep base layer) s = none := by
  unfold mergeStep
  suffices h : ∀ (l : List (StanzaKey × Stanza)) (b : Doc),
      (∀ si ∈ l, si ∈ layer) → dlookup b s = none →
      dlookup (l.foldl
        (fun b si =>
          if hasDropMarker si.2 then
            if dcontains b si.1 then ddel b si.1 else b
          else if dcontains b si.1 then
            dset b si.1 (dupdate (dgetD b si.1 []) si.2)
          else
            dset b si.1 si.2) b) s = none by
    exact h layer base (fun _ hx => hx) hb
  intro l
  induction l with
  | nil => intro b _ hb'; exact hb'
  | cons si t ih =>
    intro b hmem hbn
    rw [List.foldl_cons]
    refine ih _ (fun x hx => hmem x (List.mem_cons_of_mem _ hx)) ?_
    by_cases hks : si.1 = s
    · have hsiA' : (si.1, si.2) ∈ layer := by
        rw [Prod.mk.eta]; exact hmem si (by simp)
      have hlk : dlookup layer si.1 = some si.2 := mem_dlookup hn hsiA'
      rw [hks, hl] at hlk
      injection hlk with he
      have hmm : hasDropMarker si.2 = true := by rw [← he]; exact hm
      have hcb : dcontains b si.1 = false := by
        unfold dcontains
        rw [hks, hbn]
        rfl
      simp only [hmm, if_true, hcb, Bool.false_eq_true, if_false]
      exact hbn
    · by_cases hmmm : hasDropMarker si.2
      · by_cases hc : dcontains b si.1 <;>
          simp only [hmmm, if_true, hc, Bool.false_eq_true, if_false]
        · rw [dlookup_ddel_ne _ hks]; exact hbn
        · exact hbn
      · by_cases hc : dcontains b si.1 <;>
          simp only [hmmm, Bool.false_eq_true, if_false, hc, if_true] <;>
          rw [dlookup_dset_ne _ _ hks] <;> exact hbn

/-! # Claims C3 (diff example), C8 (continuation folding), C7 (smart write) -/

/-- Claim C3 (counterexample): on the spec's key-level example, the insert
op for `web/timeout` carries b's value `"30"` in the op's `a` field and
`None` in its `b` field — no insert op carries `"30"` as its `b` field, so
the claim that the payload is carried as the op's `b` field is false. -/
theorem C3_counterexample :
    compareCfgs wDiffA wDiffB true =
      [DiffOp.mk DIFF_OP_INSERT (DiffLoc.key (StanzaKey.name "web") "timeout")
        (DiffVal.str "30") DiffVal.null,
       DiffOp.mk DIFF_OP_REPLACE (DiffLoc.key (StanzaKey.name "web") "port")
        (DiffVal.str "80") (DiffVal.str "443")] ∧
    (compareCfgs wDiffA wDiffB true).all
      (fun op => !(op.tag = DIFF_OP_INSERT && op.b = DiffVal.str "30")) =
      true := by
  constructor <;> decide

/-- Claim C3 (amended): `compare_cfgs(A, B)` on the example yields exactly
one `replace` op at key `(web, port)` with a = "80", b = "443", and exactly
one `insert` op at key `(web, timeout)` whose payload — b's value "30" —
is carried as the op's `a` field (its `b` field is `None`). -/
theorem C3_amended :
    compareCfgs wDiffA wDiffB true =
      [DiffOp.mk DIFF_OP_INSERT (DiffLoc.key (StanzaKey.name "web") "timeout")
        (DiffVal.str "30") DiffVal.null,
       DiffOp.mk DIFF_OP_REPLACE (DiffLoc.key (StanzaKey.name "web") "port")
        (DiffVal.str "80") (DiffVal.str "443")] ∧
    ((compareCfgs wDiffA wDiffB true).filter
      (fun op => op.tag = DIFF_OP_REPLACE)).length = 1 ∧
    ((compareCfgs wDiffA wDiffB true).filter
      (fun op => op.tag = DIFF_OP_INSERT)).length = 1 := by
  refine ⟨?_, ?_, ?_⟩ <;> decide

/-- Claim C8 (counterexample): the continuation regex `^(.*)\\$` does not
look at the character before the final backslash: the line `a\\` (an
escaped backslash) is still folded with the following line, contradicting
the claim that a line ending in an escaped backslash is not a
continuation. -/
theorem C8_counterexample :
    contHandler ["a\\\\", "b"] = ["a\\\nb"] ∧
    contHandler ["a\\\\", "b"] ≠ ["a\\\\", "b"] := by
  constructor <;> decide

/-- Claim C8 (amended): any line ending in a backslash — whether or not the
backslash is preceded by another escape — is joined with the following
input, with the single trailing backslash replaced by a newline embedded
in the accumulated logical value. -/
theorem C8_amended (buf l : String) (rest : List String)
    (h : contMatches l = true) :
    contHandlerAux buf (l :: rest) =
      contHandlerAux (buf ++ contGroup l ++ "\n") rest := by
  simp [contHandlerAux, h]

/-- Witness for C8 at the line `ab\`. -/
theorem C8_witness :
    contMatches "ab\\" = true ∧
    contHandlerAux "" ["ab\\", "c"] =
      contHandlerAux ("" ++ contGroup "ab\\" ++ "\n") ["c"] :=
  ⟨by decide, C8_amended "" "ab\\" ["c"] (by decide)⟩

theorem dlookup_ddel_self [DecidableEq α] {l : List (α × β)}
    (hn : NodupKeys l) (k : α) : dlookup (ddel l k) k = none := by
  induction l with
  | nil => rfl
  | cons kv t ih =>
    obtain ⟨a, b⟩ := kv
    unfold NodupKeys at hn
    simp only [List.map_cons, List.nodup_cons] at hn
    by_cases ha : a = k
    · subst ha
      simp only [ddel, if_pos rfl]
      exact dlookup_eq_none hn.1
    · simp only [ddel, if_neg ha, dlookup, if_neg ha]
      exact ih hn.2

theorem data_append_eq (a b : String) : (a ++ b).data = a.data ++ b.data := by
  cases a
  cases b
  rfl

theorem ne_append_tmp (s t : String) (h : t ≠ "") : s ≠ s ++ t := by
  intro he
  apply h
  have hd : s.data = s.data ++ t.data := by
    have h2 := congrArg String.data he
    rwa [data_append_eq] at h2
  have hlen := congrArg List.length hd
  rw [List.length_append] at hlen
  have hnil : t.data = [] := List.length_eq_zero.mp (by omega)
  cases t
  exact congrArg String.mk hnil

/-- Claim C7 (counterexample): with destination `f.conf` holding `"old"`
and a document serializing differently, `smart_write_conf` takes the
update path and its second filesystem state — after the `os.unlink` of
the destination and before the `os.rename` — has no entry for `f.conf`:
the destination IS missing if the process is interrupted there. -/
theorem C7_counterexample :
    (smartWriteConf "f.conf" wDocA [("f.conf", "old")]).2 = SMART_UPDATE ∧
    (smartWriteConf "f.conf" wDocA [("f.conf", "old")]).1.length = 3 ∧
    dlookup ((smartWriteConf "f.conf" wDocA
      [("f.conf", "old")]).1.getD 1 []) "f.conf" = none := by
  refine ⟨?_, ?_, ?_⟩ <;> decide

/-- Claim C7 (amended): when the destination exists, `smart_write_conf`
serializes to a staging buffer, compares byte-for-byte, and returns
`unchanged` touching nothing when they match.  When they differ it first
writes the full new serialization to `filename + ".tmp"` while the
destination still holds its original bytes, then unlinks the destination —
so the destination is *missing* (never partially written) between the
unlink and the rename — and after the rename the destination holds exactly
the new serialization. -/
theorem C7_amended (filename : String) (conf : Doc) (fs : FileSys)
    (old : String) (hn : NodupKeys fs)
    (hfs : dlookup fs filename = some old) :
    (old = writeConf conf "\n" true →
      smartWriteConf filename conf fs = ([], SMART_NOCHANGE)) ∧
    (old ≠ writeConf conf "\n" true →
      ∃ fs1 fs2 fs3,
        smartWriteConf filename conf fs = ([fs1, fs2, fs3], SMART_UPDATE) ∧
        dlookup fs1 filename = some old ∧
        dlookup fs1 (filename ++ ".tmp") =
          some (writeConf conf "\n" true) ∧
        dlookup fs2 filename = none ∧
        dlookup fs2 (filename ++ ".tmp") =
          some (writeConf conf "\n" true) ∧
        dlookup fs3 filename = some (writeConf conf "\n" true)) := by
  have hc : dcontains fs filename = true := by
    unfold dcontains
    rw [hfs]
    rfl
  have hget : dgetD fs filename "" = old := by
    unfold dgetD
    rw [hfs]
    rfl
  have htmp : filename ≠ filename ++ ".tmp" :=
    ne_append_tmp filename ".tmp" (by decide)
  constructor
  · intro he
    simp [smartWriteConf, hc, hget, fileobjCompare, he]
  · intro hne
    have hne' : fileobjCompare (writeConf conf "\n" true) old = false := by
      unfold fileobjCompare
      exact decide_eq_false fun h2 => hne h2.symm
    refine ⟨dset fs (filename ++ ".tmp") (writeConf conf "\n" true),
      ddel (dset fs (filename ++ ".tmp") (writeConf conf "\n" true))
        filename,
      dset (ddel (ddel (dset fs (filename ++ ".tmp")
          (writeConf conf "\n" true)) filename) (filename ++ ".tmp"))
        filename (writeConf conf "\n" true),
      ?_, ?_, ?_, ?_, ?_, ?_⟩
    · simp [smartWriteConf, hc, hget, hne']
    · rw [dlookup_dset_ne _ _ (Ne.symm htmp)]
      exact hfs
    · exact dlookup_dset_self _ _ _
    · exact dlookup_ddel_self (nodupKeys_dset hn _ _) _
    · rw [dlookup_ddel_ne _ htmp]
      exact dlookup_dset_self _ _ _
    · exact dlookup_dset_self _ _ _

/-! # Order lemmas for the comparators, and claim C2 -/

theorem listBle_refl : ∀ (a : List Char), listBle a a = true
  | [] => rfl
  | c :: t => by simp only [listBle, if_pos rfl]; exact listBle_refl t

theorem listBle_trans : ∀ {a b c : List Char}, listBle a b = true →
    listBle b c = true → listBle a c = true
  | [], _, _, _, _ => rfl
  | _ :: _, [], _, hab, _ => by simp [listBle] at hab
  | _ :: _, _ :: _, [], _, hbc => by simp [listBle] at hbc
  | x :: as, y :: bs, z :: cs, hab, hbc => by
    by_cases hxy : x = y
    · subst hxy
      by_cases hyz : x = z
      · subst hyz
        simp only [listBle, if_pos rfl] at hab hbc ⊢
        exact listBle_trans hab hbc
      · simp only [listBle, if_pos rfl] at hab
        simp only [listBle, if_neg hyz] at hbc ⊢
        exact hbc
    · by_cases hyz : y = z
      · subst hyz
        simp only [listBle, if_neg hxy] at hab ⊢
        exact hab
      · simp only [listBle, if_neg hxy] at hab
        simp only [listBle, if_neg hyz] at hbc
        have hxz : x < z :=
          lt_trans (of_decide_eq_true hab) (of_decide_eq_true hbc)
        simp only [listBle, if_neg (ne_of_lt hxz)]
        exact decide_eq_true hxz

theorem listBle_total : ∀ (a b : List Char),
    listBle a b = true ∨ listBle b a = true
  | [], _ => Or.inl rfl
  | _ :: _, [] => Or.inr rfl
  | x :: as, y :: bs => by
    by_cases hxy : x = y
    · subst hxy
      simp only [listBle, if_pos rfl]
      exact listBle_total as bs
    · rcases lt_trichotomy x y with h | h | h
      · left
        simp only [listBle, if_neg hxy]
        exact decide_eq_true h
      · exact absurd h hxy
      · right
        simp only [listBle, if_neg (Ne.symm hxy)]
        exact decide_eq_true h

theorem strBle_trans {a b c : String} (h1 : strBle a b = true)
    (h2 : strBle b c = true) : strBle a c = true :=
  listBle_trans h1 h2

theorem strBle_total (a b : String) :
    strBle a b = true ∨ strBle b a = true :=
  listBle_total a.data b.data

theorem keyBle_trans {a b c : StanzaKey} (h1 : keyBle a b = true)
    (h2 : keyBle b c = true) : keyBle a c = true := by
  cases a with
  | global => rfl
  | name s =>
    cases b with
    | global => simp [keyBle] at h1
    | name t =>
      cases c with
      | global => simp [keyBle] at h2
      | name u => exact strBle_trans h1 h2

theorem keyBle_total (a b : StanzaKey) :
    keyBle a b = true ∨ keyBle b a = true := by
  cases a with
  | global => exact Or.inl rfl
  | name s =>
    cases b with
    | global => exact Or.inr rfl
    | name t => exact strBle_total s t

instance : IsTotal StanzaKey (fun x y => keyBle x y = true) :=
  ⟨keyBle_total⟩

instance : IsTrans StanzaKey (fun x y => keyBle x y = true) :=
  ⟨fun _ _ _ => keyBle_trans⟩

theorem pairwiseAnd {α : Type} {R S : α → α → Prop} {l : List α}
    (h1 : List.Pairwise R l) (h2 : List.Pairwise S l) :
    List.Pairwise (fun a b => R a b ∧ S a b) l := by
  induction l with
  | nil => exact List.Pairwise.nil
  | cons a t ih =>
    rw [List.pairwise_cons] at h1 h2 ⊢
    exact ⟨fun b hb => ⟨h1.1 b hb, h2.1 b hb⟩, ih h1.2 h2.2⟩

theorem mem_dedupL [DecidableEq α] {x : α} : ∀ {l : List α},
    x ∈ dedupL l ↔ x ∈ l := by
  intro l
  induction l with
  | nil => simp [dedupL]
  | cons a t ih =>
    simp only [dedupL, List.mem_cons, List.mem_filter]
    constructor
    · rintro (h | ⟨h, _⟩)
      · exact Or.inl h
      · exact Or.inr (ih.mp h)
    · rintro (h | h)
      · exact Or.inl h
      · by_cases hx : x = a
        · exact Or.inl hx
        · exact Or.inr ⟨ih.mpr h, by simpa using hx⟩

theorem nodup_dedupL [DecidableEq α] : ∀ (l : List α), (dedupL l).Nodup
  | [] => List.Pairwise.nil
  | a :: t => by
    simp only [dedupL, List.nodup_cons]
    refine ⟨fun h => ?_, List.Nodup.filter _ (nodup_dedupL t)⟩
    have h2 := (List.mem_filter.mp h).2
    simp at h2

theorem sortByB_perm (le : α → α → Bool) (l : List α) :
    List.Perm (sortByB le l) l :=
  List.perm_insertionSort _ l

theorem sortByB_nodup [DecidableEq α] (le : α → α → Bool) {l : List α}
    (h : l.Nodup) : (sortByB le l).Nodup :=
  ((sortByB_perm le l).nodup_iff).mpr h

theorem destutter_cons_ne [DecidableEq α] {a b : α} {l : List α}
    (hh : l.head? = some b) (hab : a ≠ b) :
    destutter (a :: l) = a :: destutter l := by
  cases l with
  | nil => simp at hh
  | cons x t =>
    simp only [List.head?] at hh
    injection hh with hh
    subst hh
    simp only [destutter, if_neg hab]

theorem destutter_cons_cons_self [DecidableEq α] (a : α) (l : List α) :
    destutter (a :: a :: l) = destutter (a :: l) := by
  simp [destutter]

theorem destutter_replicate [DecidableEq α] (a : α) :
    ∀ (n : Nat), 0 < n → ∀ (rest : List α),
      destutter (List.replicate n a ++ rest) = destutter (a :: rest)
  | 0, h, _ => absurd h (by simp)
  | 1, _, rest => by simp
  | n + 2, _, rest => by
    have ih := destutter_replicate a (n + 1) (by omega) rest
    calc destutter (List.replicate (n + 2) a ++ rest)
        = destutter (a :: a :: (List.replicate n a ++ rest)) := rfl
      _ = destutter (a :: (List.replicate n a ++ rest)) :=
          destutter_cons_cons_self a _
      _ = destutter (List.replicate (n + 1) a ++ rest) := rfl
      _ = destutter (a :: rest) := ih

theorem filterMap_const_of_label {g : β → Option α} {c : α} :
    ∀ {l : List β}, (∀ x ∈ l, g x = some c) →
      l.filterMap g = List.replicate l.length c := by
  intro l
  induction l with
  | nil => simp
  | cons x t ih =>
    intro h
    rw [List.filterMap_cons, h x (by simp), List.length_cons,
      List.replicate_succ]
    rw [ih fun y hy => h y (List.mem_cons_of_mem _ hy)]

theorem head?_filterMap_label {g : β → Option α} {c : α} {l : List β}
    (hne : l ≠ []) (h : ∀ x ∈ l, g x = some c) :
    (l.filterMap g).head? = some c := by
  rw [filterMap_const_of_label h]
  cases l with
  | nil => exact absurd rfl hne
  | cons x t => simp [List.replicate_succ]

/-- Destuttering the stanza labels of a concatenation of nonempty,
constantly-labelled groups recovers the (duplicate-free) label list. -/
theorem destutter_flatMap_labels [DecidableEq α] {g : β → Option α}
    {f : α → List β} :
    ∀ (L : List α), L.Nodup → (∀ s ∈ L, f s ≠ []) →
      (∀ s ∈ L, ∀ op ∈ f s, g op = some s) →
      destutter ((L.flatMap f).filterMap g) = L := by
  intro L
  induction L with
  | nil => intro _ _ _; rfl
  | cons s t ih =>
    intro hnd hne hlab
    rw [List.flatMap_cons, List.filterMap_append]
    rw [filterMap_const_of_label (hlab s (by simp))]
    have hlen : 0 < (f s).length :=
      List.length_pos.mpr (hne s (by simp))
    rw [destutter_replicate _ _ hlen]
    simp only [List.nodup_cons] at hnd
    cases t with
    | nil => simp [destutter]
    | cons s' t' =>
      have hs' : s ≠ s' := fun h => hnd.1 (h ▸ List.mem_cons_self s' t')
      have hhead : ((s' :: t').flatMap f |>.filterMap g).head? = some s' := by
        rw [List.flatMap_cons, List.filterMap_append]
        rw [List.head?_append_of_ne_nil]
        · exact head?_filterMap_label (hne s' (by simp))
            (hlab s' (by simp))
        · intro hcon
          have := filterMap_const_of_label (hlab s' (by simp))
            (l := f s')
          rw [this] at hcon
          have := hne s' (by simp)
          cases hfs : f s' with
          | nil => exact this hfs
          | cons x xs => rw [hfs] at hcon; simp [List.replicate_succ] at hcon
      rw [destutter_cons_ne hhead hs']
      rw [ih hnd.2 (fun x hx => hne x (List.mem_cons_of_mem _ hx))
        (fun x hx => hlab x (List.mem_cons_of_mem _ hx))]

theorem stanzaOps_ne_nil (a b : Doc) (s : StanzaKey) :
    stanzaOps a b s ≠ [] := by
  unfold stanzaOps
  by_cases h1 : (dcontains a s && dcontains b s) = true
  · rw [if_pos h1]
    by_cases h2 : stanzaEqb (dgetD a s []) (dgetD b s []) = true
    · simp [h2]
    · rw [if_neg h2]
      rcases hcs : cmpSets strBle (keysOf (dgetD a s []))
        (keysOf (dgetD b s [])) with ⟨kvA, kvCommon, kvB⟩
      dsimp only
      by_cases h3 : kvCommon = []
      · simp [h3]
      · simp only [h3, if_false]
        unfold keyLevelOps
        intro hcon
        rw [List.append_eq_nil, List.append_eq_nil] at hcon
        have := hcon.2
        rw [List.map_eq_nil_iff] at this
        exact h3 this
  · rw [if_neg h1]
    by_cases h4 : dcontains a s = true <;> simp [h4]

theorem stanzaOps_label (a b : Doc) (s : StanzaKey) :
    ∀ op ∈ stanzaOps a b s, locStanza op.location = some s := by
  intro op hop
  unfold stanzaOps at hop
  by_cases h1 : (dcontains a s && dcontains b s) = true
  · rw [if_pos h1] at hop
    by_cases h2 : stanzaEqb (dgetD a s []) (dgetD b s []) = true
    · rw [if_pos h2] at hop
      simp at hop
      rw [hop]
      rfl
    · rw [if_neg h2] at hop
      rcases hcs : cmpSets strBle (keysOf (dgetD a s []))
        (keysOf (dgetD b s [])) with ⟨kvA, kvCommon, kvB⟩
      rw [hcs] at hop
      by_cases h3 : kvCommon = []
      · simp only [h3, if_true] at hop
        simp at hop
        rw [hop]
        rfl
      · simp only [h3, if_false] at hop
        unfold keyLevelOps at hop
        rcases List.mem_append.mp hop with hh | hh
        · rcases List.mem_append.mp hh with hh2 | hh2 <;>
          · obtain ⟨k, _, hk⟩ := List.mem_map.mp hh2
            rw [← hk]
            rfl
        · obtain ⟨k, _, hk⟩ := List.mem_map.mp hh
          rw [← hk]
          by_cases hv : dgetD (dgetD a s []) k "" = dgetD (dgetD b s []) k ""
          · simp only [hv, if_true]
            rfl
          · simp only [hv, if_false]
            rfl
  · rw [if_neg h1] at hop
    by_cases h4 : dcontains a s = true <;> simp [h4] at hop <;>
      rw [hop] <;> rfl

theorem compareCfgs_stanza_pass (a b : Doc) (hne : docEqb a b = false)
    (hcom : (cmpSets keyBle (keysOf a) (keysOf b)).2.1 ≠ []) :
    compareCfgs a b true = (allStanzasSorted a b).flatMap (stanzaOps a b) := by
  unfold compareCfgs
  rcases hcs : cmpSets keyBle (keysOf a) (keysOf b) with ⟨x, common, y⟩
  rw [hcs] at hcom
  simp only [ne_eq] at hcom
  simp [hne, hcom]

theorem allStanzasSorted_nodup (a b : Doc) :
    (allStanzasSorted a b).Nodup := by
  unfold allStanzasSorted
  apply sortByB_nodup
  by_cases hg : GLOBAL_STANZA ∈ dedupL (keysOf a ++ keysOf b) <;>
    simp only [hg, if_true, if_false]
  · rw [List.nodup_cons]
    refine ⟨fun h => ?_, List.Nodup.filter _ (nodup_dedupL _)⟩
    have h2 := (List.mem_filter.mp h).2
    simp at h2
  · exact nodup_dedupL _

theorem allStanzasSorted_sorted (a b : Doc) :
    List.Sorted (fun x y => keyBle x y = true) (allStanzasSorted a b) :=
  List.sorted_insertionSort _ _

theorem mem_allStanzasSorted {a b : Doc} {x : StanzaKey} :
    x ∈ allStanzasSorted a b ↔ (x ∈ keysOf a ∨ x ∈ keysOf b) := by
  unfold allStanzasSorted
  rw [(sortByB_perm _ _).mem_iff]
  by_cases hg : GLOBAL_STANZA ∈ dedupL (keysOf a ++ keysOf b) <;>
    simp only [hg, if_true, if_false]
  · rw [List.mem_cons]
    constructor
    · rintro (rfl | h)
      · have := mem_dedupL.mp hg
        simpa using this
      · have := mem_dedupL.mp (List.mem_filter.mp h).1
        simpa using this
    · intro h
      by_cases hx : x = GLOBAL_STANZA
      · exact Or.inl hx
      · refine Or.inr (List.mem_filter.mpr ⟨mem_dedupL.mpr ?_, by simpa⟩)
        simpa using h
  · rw [mem_dedupL, List.mem_append]

theorem head_allStanzasSorted_global {a b : Doc}
    (hg : GLOBAL_STANZA ∈ keysOf a ∨ GLOBAL_STANZA ∈ keysOf b) :
    (allStanzasSorted a b).head? = some GLOBAL_STANZA := by
  have hmem : GLOBAL_STANZA ∈ allStanzasSorted a b :=
    mem_allStanzasSorted.mpr hg
  have hsort := allStanzasSorted_sorted a b
  cases hL : allStanzasSorted a b with
  | nil => rw [hL] at hmem; simp at hmem
  | cons h t =>
    rw [hL] at hmem hsort
    rcases List.mem_cons.mp hmem with h1 | h2
    · rw [← h1]
      rfl
    · have hle := (List.sorted_cons.mp hsort).1 _ h2
      cases h with
      | global => rfl
      | name s => simp [keyBle, GLOBAL_STANZA] at hle

/-- Claim C2 (confirmed): in the stanza-level pass of `compare_cfgs(a, b)`
(reached when the whole-file shortcut does not fire), the sequence of
stanza groups the emitted ops walk through puts the GLOBAL stanza first
whenever it occurs in either document, and lists all remaining stanza
names of the union in strictly ascending lexical order.  (GLOBAL sorts
first because the CPython 2 mixed-type order places the `Token` instance
before every string.) -/
theorem C2_stanza_order (a b : Doc) (hne : docEqb a b = false)
    (hcom : (cmpSets keyBle (keysOf a) (keysOf b)).2.1 ≠ []) :
    ((GLOBAL_STANZA ∈ keysOf a ∨ GLOBAL_STANZA ∈ keysOf b) →
      (opStanzaSeq (compareCfgs a b true)).head? = some GLOBAL_STANZA) ∧
    List.Chain' (fun x y => keyBle x y = true ∧ x ≠ y)
      (opStanzaSeq (compareCfgs a b true)) ∧
    (∀ k : StanzaKey, k ∈ opStanzaSeq (compareCfgs a b true) ↔
      (k ∈ keysOf a ∨ k ∈ keysOf b)) := by
  have hseq : opStanzaSeq (compareCfgs a b true) = allStanzasSorted a b := by
    rw [compareCfgs_stanza_pass a b hne hcom]
    unfold opStanzaSeq
    exact destutter_flatMap_labels _ (allStanzasSorted_nodup a b)
      (fun s _ => stanzaOps_ne_nil a b s)
      (fun s _ op hop => stanzaOps_label a b s op hop)
  rw [hseq]
  refine ⟨head_allStanzasSorted_global, ?_, fun k => mem_allStanzasSorted⟩
  exact (pairwiseAnd (allStanzasSorted_sorted a b)
    (allStanzasSorted_nodup a b)).chain'

/-- Witness for C2: two concrete documents sharing stanza `b`, with GLOBAL
present in the first. -/
theorem C2_witness :
    (docEqb wCmpA wCmpB = false ∧
      (cmpSets keyBle (keysOf wCmpA) (keysOf wCmpB)).2.1 ≠ []) ∧
    (((GLOBAL_STANZA ∈ keysOf wCmpA ∨ GLOBAL_STANZA ∈ keysOf wCmpB) →
      (opStanzaSeq (compareCfgs wCmpA wCmpB true)).head? =
        some GLOBAL_STANZA) ∧
    List.Chain' (fun x y => keyBle x y = true ∧ x ≠ y)
      (opStanzaSeq (compareCfgs wCmpA wCmpB true)) ∧
    (∀ k : StanzaKey, k ∈ opStanzaSeq (compareCfgs wCmpA wCmpB true) ↔
      (k ∈ keysOf wCmpA ∨ k ∈ keysOf wCmpB))) :=
  ⟨⟨by decide, by decide⟩,
    C2_stanza_order wCmpA wCmpB (by decide) (by decide)⟩

/-! # Claim C9: empty-bodied stanzas -/

theorem headerGroup_last {t : List Char} {g : List Char}
    (h : headerGroup t = some g) :
    ∃ c, t.getLast? = some c ∧ (c = ']' ∨ isPySpace c = true) := by
  induction t generalizing g with
  | nil => simp [headerGroup] at h
  | cons c t' ih =>
    by_cases hc : c = '\n'
    · subst hc
      have hnone : headerGroup ('\n' :: t') = none := by
        rw [headerGroup]
        simp
      rw [hnone] at h
      simp at h
    · rw [headerGroup, if_pos (by simpa using hc)] at h
      cases hg' : headerGroup t' with
      | some g' =>
        rw [hg'] at h
        obtain ⟨c', hc', hp⟩ := ih hg'
        refine ⟨c', ?_, hp⟩
        cases t' with
        | nil => simp at hc'
        | cons x t'' => rw [List.getLast?_cons_cons]; exact hc'
      | none =>
        rw [hg'] at h
        simp only at h
        split at h
        · rename_i hcond
          rw [Bool.and_eq_true] at hcond
          have hcr : c = ']' := by simpa using hcond.1
          cases t' with
          | nil => exact ⟨c, by simp, Or.inl hcr⟩
          | cons x t'' =>
            have hlast : ∃ c', (x :: t'').getLast? = some c' := by
              cases hgl : (x :: t'').getLast? with
              | none => simp at hgl
              | some y => exact ⟨y, rfl⟩
            obtain ⟨c', hc'⟩ := hlast
            refine ⟨c', by rw [List.getLast?_cons_cons]; exact hc', Or.inr ?_⟩
            have hmem := List.mem_of_mem_getLast? (hc' ▸ rfl :
              c' ∈ (x :: t'').getLast?)
            exact List.all_eq_true.mp hcond.2 c' hmem
        · simp at h

theorem rstripNL_eq_self {l : String} {c : Char}
    (h : l.data.getLast? = some c) (hn : c ≠ '\n') (hr : c ≠ '\r') :
    rstripNL l = l := by
  unfold rstripNL
  have hrev : l.data.reverse.head? = some c := by
    rw [List.head?_reverse]; exact h
  have hdrop : l.data.reverse.dropWhile
      (fun ch => ch = '\n' || ch = '\r') = l.data.reverse := by
    cases hd : l.data.reverse with
    | nil => rfl
    | cons x rest =>
      rw [hd] at hrev
      simp only [List.head?] at hrev
      injection hrev with hxc
      subst hxc
      rw [List.dropWhile_cons, if_neg (by simp [hn, hr])]
  rw [hdrop, List.reverse_reverse]

theorem header_not_cont {l : String} {n : String}
    (h : headerName (rstripNL l) = some n) : contMatches l = false := by
  by_contra hcon
  have hc : contMatches l = true := by
    cases hcm : contMatches l with
    | false => exact absurd hcm hcon
    | true => rfl
  have hc' : l.data.getLast? = some '\\' := by
    unfold contMatches at hc
    exact of_decide_eq_true hc
  have hself : rstripNL l = l :=
    rstripNL_eq_self hc' (by decide) (by decide)
  rw [hself] at h
  unfold headerName at h
  cases hld : l.data with
  | nil => rw [hld] at h; simp at h
  | cons c t =>
    rw [hld] at h
    by_cases hcb : c = '['
    · subst hcb
      simp only at h
      cases hhg : headerGroup t with
      | none => rw [hhg] at h; simp at h
      | some g =>
        obtain ⟨c', hcl, hp⟩ := headerGroup_last hhg
        have ht : t ≠ [] := by
          intro he
          rw [he] at hcl
          simp at hcl
        rw [hld] at hc'
        have h2 : t.getLast? = some '\\' := by
          cases t with
          | nil => exact absurd rfl ht
          | cons x t'' =>
            rw [List.getLast?_cons_cons] at hc'
            exact hc'
        rw [h2] at hcl
        injection hcl with hcl
        subst hcl
        rcases hp with hp | hp
        · exact absurd hp (by decide)
        · exact absurd hp (by decide)
    · have hnone : (match c :: t with
          | '[' :: rest => (headerGroup rest).map String.mk
          | _ => none) = (none : Option String) := by
        split
        · rename_i heq
          injection heq with h1 _
          exact absurd h1 hcb
        · rfl
      rw [hnone] at h
      simp at h

theorem contHandlerAux_noCont :
    ∀ (pre rest : List String), (∀ l ∈ pre, contMatches l = false) →
      contHandlerAux "" (pre ++ rest) = pre ++ contHandlerAux "" rest := by
  intro pre
  induction pre with
  | nil => intro rest _; rfl
  | cons l t ih =>
    intro rest h
    rw [List.cons_append]
    rw [show contHandlerAux "" (l :: (t ++ rest)) =
      l :: contHandlerAux "" (t ++ rest) by
        simp [contHandlerAux, h l (by simp)]]
    rw [ih rest fun x hx => h x (List.mem_cons_of_mem _ hx)]
    rfl

theorem sectionReaderAux_header {sec : Option String} {buf : List String}
    {h1 : String} {n1 : String} (t : List String)
    (hh1 : headerName (rstripNL h1) = some n1) :
    sectionReaderAux sec buf (h1 :: t) =
      (if buf ≠ [] then [(sec, buf)] else []) ++
        sectionReaderAux (some n1) [] t := by
  rw [sectionReaderAux]
  simp only [hh1]

theorem sectionReaderAux_header_header {h1 h2 : String} {n1 n2 : String}
    (hh1 : headerName (rstripNL h1) = some n1)
    (hh2 : headerName (rstripNL h2) = some n2) :
    ∀ (xs : List String) (sec : Option String) (buf : List String),
      sectionReaderAux sec buf (xs ++ h1 :: h2 :: rest) =
        sectionReaderAux sec buf (xs ++ h2 :: rest) := by
  intro xs
  induction xs with
  | nil =>
    intro sec buf
    rw [List.nil_append, List.nil_append]
    rw [sectionReaderAux_header _ hh1, sectionReaderAux_header _ hh2]
    rw [sectionReaderAux_header _ hh2]
    simp
  | cons l t ih =>
    intro sec buf
    rw [List.cons_append, List.cons_append]
    rw [sectionReaderAux, sectionReaderAux]
    cases hl : headerName (rstripNL l) with
    | some m => simp only [ih]
    | none => simp only [ih]

theorem except_bind_ok {γ δ : Type} {e : Except String γ}
    {f : γ → Except String δ} {d : δ} (h : (e >>= f) = Except.ok d) :
    ∃ c, e = Except.ok c ∧ f c = Except.ok d := by
  cases e with
  | error err => simp [Bind.bind, Except.bind] at h
  | ok c => exact ⟨c, rfl, by simpa [Bind.bind, Except.bind] using h⟩

theorem parseSections_cons_ok {kl kc st : Bool} {dS dK : String}
    {sections : Doc} {se : Option String} {en : List String}
    {rest : List (Option String × List String)} {D : Doc}
    (h : parseSections kl kc st dS dK sections ((se, en) :: rest) =
      Except.ok D) :
    ∃ sections2,
      parseSections kl kc st dS dK sections2 rest = Except.ok D := by
  rw [parseSections.eq_def] at h
  dsimp only at h
  obtain ⟨s0, _, h⟩ := except_bind_ok h
  obtain ⟨pairs, _, h⟩ := except_bind_ok h
  obtain ⟨s1, _, h⟩ := except_bind_ok h
  exact ⟨_, h⟩

theorem parse_single_trailing {n : String} {sections : Doc} {D : Doc}
    (h : parseSections false false false DUP_EXCEPTION DUP_OVERWRITE
      sections [(some n, [])] = Except.ok D) :
    dlookup D (StanzaKey.name n) = some [] := by
  rw [parseSections.eq_def] at h
  dsimp only at h
  by_cases hcont : dcontains sections (StanzaKey.name n) = true
  · rw [if_pos hcont,
      if_neg (show ¬(DUP_EXCEPTION = DUP_OVERWRITE) by decide),
      if_pos rfl] at h
    simp [Bind.bind, Except.bind] at h
  · rw [if_neg hcont] at h
    simp only [Bind.bind, Except.bind] at h
    rw [show (splitupKvpairs false false ([] : List String)) =
      Except.ok [] from rfl] at h
    dsimp only at h
    rw [show parseStanzaPairs false DUP_OVERWRITE [] [] [] =
      Except.ok [] from rfl] at h
    dsimp only at h
    rw [parseSections.eq_def] at h
    dsimp only at h
    injection h with h
    rw [← h]
    exact dlookup_dset_self _ _ _

theorem parse_trailing_header {h : String} {n : String}
    (hh : headerName (rstripNL h) = some n) (hn : n ≠ "") :
    ∀ (xs : List String) (sec : Option String) (buf : List String)
      (sections : Doc) (D : Doc),
      parseSections false false false DUP_EXCEPTION DUP_OVERWRITE sections
        (sectionReaderAux sec buf (xs ++ [h])) = Except.ok D →
      dlookup D (StanzaKey.name n) = some [] := by
  intro xs
  induction xs with
  | nil =>
    intro sec buf sections D hok
    rw [List.nil_append, sectionReaderAux_header _ hh] at hok
    rw [show sectionReaderAux (some n) [] ([] : List String) =
      [(some n, [])] by rw [sectionReaderAux]; simp [hn]] at hok
    by_cases hbuf : buf ≠ []
    · rw [if_pos hbuf, List.cons_append, List.nil_append] at hok
      obtain ⟨sections2, h2⟩ := parseSections_cons_ok hok
      exact parse_single_trailing h2
    · rw [if_neg hbuf, List.nil_append] at hok
      exact parse_single_trailing hok
  | cons l t ih =>
    intro sec buf sections D hok
    rw [List.cons_append] at hok
    cases hl : headerName (rstripNL l) with
    | some m =>
      rw [sectionReaderAux_header _ hl] at hok
      by_cases hbuf : buf ≠ []
      · rw [if_pos hbuf, List.cons_append, List.nil_append] at hok
        obtain ⟨sections2, h2⟩ := parseSections_cons_ok hok
        exact ih (some m) [] sections2 D h2
      · rw [if_neg hbuf, List.nil_append] at hok
        exact ih (some m) [] sections D hok
    | none =>
      rw [show sectionReaderAux sec buf (l :: (t ++ [h])) =
        sectionReaderAux sec (buf ++ [rstripNL l]) (t ++ [h]) by
          rw [sectionReaderAux, hl]] at hok
      exact ih sec (buf ++ [rstripNL l]) sections D hok

/-- Claim C9 (confirmed): (1) a stanza header line immediately followed by
another header line contributes no entry: parsing is as if the first
header were absent; (2) an empty-bodied stanza whose header ends the
stream is yielded as `(name, [])` by the section reader and, when parsing
succeeds, appears in the document as an empty mapping; (3) a trailing
literal `[]` header — captured name `""`, which is falsy in Python — is
dropped by the section reader's final `if section or buf` flush. -/
theorem C9_empty_stanzas :
    (∀ (pre : List String) (h1 h2 : String) (post : List String)
      (n1 n2 : String), (∀ l ∈ pre, contMatches l = false) →
      headerName (rstripNL h1) = some n1 →
      headerName (rstripNL h2) = some n2 →
      parseConfD (pre ++ h1 :: h2 :: post) =
        parseConfD (pre ++ h2 :: post)) ∧
    (∀ (sec : Option String) (buf : List String) (h : String) (n : String),
      headerName (rstripNL h) = some n → n ≠ "" →
      sectionReaderAux sec buf [h] =
        (if buf ≠ [] then [(sec, buf)] else []) ++ [(some n, [])]) ∧
    (∀ (lines : List String) (h : String) (n : String) (D : Doc),
      (∀ l ∈ lines, contMatches l = false) →
      headerName (rstripNL h) = some n → n ≠ "" →
      parseConfD (lines ++ [h]) = Except.ok D →
      dlookup D (StanzaKey.name n) = some []) ∧
    (∀ (sec : Option String) (buf : List String) (h : String),
      headerName (rstripNL h) = some "" →
      sectionReaderAux sec buf [h] =
        (if buf ≠ [] then [(sec, buf)] else [])) := by
  refine ⟨?_, ?_, ?_, ?_⟩
  · intro pre h1 h2 post n1 n2 hpre hh1 hh2
    show parseSections false false false DUP_EXCEPTION DUP_OVERWRITE []
        (sectionReaderAux none []
          (contHandlerAux "" (pre ++ h1 :: h2 :: post))) =
      parseSections false false false DUP_EXCEPTION DUP_OVERWRITE []
        (sectionReaderAux none []
          (contHandlerAux "" (pre ++ h2 :: post)))
    rw [contHandlerAux_noCont pre _ hpre, contHandlerAux_noCont pre _ hpre]
    rw [show contHandlerAux "" (h1 :: h2 :: post) =
      h1 :: contHandlerAux "" (h2 :: post) by
        simp [contHandlerAux, header_not_cont hh1]]
    rw [show contHandlerAux "" (h2 :: post) =
      h2 :: contHandlerAux "" post by
        simp [contHandlerAux, header_not_cont hh2]]
    rw [sectionReaderAux_header_header hh1 hh2]
  · intro sec buf h n hh hn
    rw [sectionReaderAux_header _ hh]
    rw [show sectionReaderAux (some n) [] ([] : List String) =
      [(some n, [])] by rw [sectionReaderAux]; simp [hn]]
  · intro lines h n D hpre hh hn hok
    have hok' : parseSections false false false DUP_EXCEPTION DUP_OVERWRITE
        []
        (sectionReaderAux none [] (contHandlerAux "" (lines ++ [h]))) =
        Except.ok D := hok
    rw [contHandlerAux_noCont lines [h] hpre] at hok'
    rw [show contHandlerAux "" [h] = [h] by
      simp [contHandlerAux, header_not_cont hh]] at hok'
    exact parse_trailing_header hh hn lines none [] [] D hok'
  · intro sec buf h hh
    rw [sectionReaderAux_header _ hh]
    rw [show sectionReaderAux (some "") [] ([] : List String) = [] by
      rw [sectionReaderAux]; simp]
    rw [List.append_nil]

/-! # Claim C4: the write/parse round trip -/

theorem str_eq_of_data {a b : String} (h : a.data = b.data) : a = b := by
  cases a
  cases b
  cases h
  rfl

theorem str_nil_append (s : String) : "" ++ s = s := by
  apply str_eq_of_data
  rw [data_append_eq]
  rfl

theorem str_append_nil (s : String) : s ++ "" = s := by
  apply str_eq_of_data
  rw [data_append_eq]
  exact List.append_nil _

theorem strMk_append (a b : List Char) :
    String.mk a ++ String.mk b = String.mk (a ++ b) := rfl

theorem strFoldlAppend (s : String) (l : List String) :
    l.foldl (· ++ ·) s = s ++ l.foldl (· ++ ·) "" := by
  induction l generalizing s with
  | nil => simp [str_append_nil]
  | cons a t ih =>
    rw [List.foldl_cons, List.foldl_cons, ih (s ++ a), ih ("" ++ a)]
    rw [str_nil_append, String.append_assoc]

theorem strJoin_cons (a : String) (l : List String) :
    String.join (a :: l) = a ++ String.join l := by
  show (a :: l).foldl (· ++ ·) "" = a ++ l.foldl (· ++ ·) ""
  rw [List.foldl_cons, str_nil_append, strFoldlAppend]

theorem strJoin_nil : String.join [] = "" := rfl

theorem unlines_append (a b : List String) :
    unlines (a ++ b) = unlines a ++ unlines b := by
  induction a with
  | nil => rw [List.nil_append, unlines, str_nil_append]
  | cons l t ih =>
    rw [List.cons_append, unlines, unlines, ih]
    simp only [String.append_assoc]

theorem unlines_kvPhysAux : ∀ (cs : List Char) (pre : List Char),
    unlines (kvPhysAux pre cs) =
      String.mk pre ++ String.mk (escNL cs) ++ "\n" := by
  intro cs
  induction cs with
  | nil =>
    intro pre
    rw [kvPhysAux, unlines, unlines, escNL]
    rw [str_append_nil]
    apply str_eq_of_data
    simp [data_append_eq]
  | cons c t ih =>
    intro pre
    by_cases hc : c = '\n'
    · subst hc
      rw [kvPhysAux, if_pos rfl, escNL, if_pos rfl, unlines, ih]
      apply str_eq_of_data
      simp [data_append_eq]
    · rw [kvPhysAux, if_neg hc, escNL, if_neg hc, ih]
      apply str_eq_of_data
      simp [data_append_eq]

theorem renderKV_eq_unlines (kv : String × String)
    (hk : kv.1.data.head? ≠ some '#') :
    renderKV kv = unlines (kvPhys kv) := by
  rw [renderKV, if_neg hk, kvPhys, unlines_kvPhysAux]
  apply str_eq_of_data
  simp [data_append_eq]

theorem join_renderKV_eq (l : List (String × String))
    (h : ∀ kv ∈ l, (kv.1 : String).data.head? ≠ some '#') :
    String.join (l.map renderKV) = unlines (l.flatMap kvPhys) := by
  induction l with
  | nil => rfl
  | cons kv t ih =>
    rw [List.map_cons, strJoin_cons, List.flatMap_cons, unlines_append]
    rw [renderKV_eq_unlines kv (h kv (by simp)),
      ih fun x hx => h x (List.mem_cons_of_mem _ hx)]

theorem writeStanzaBody_eq_unlines (st : Stanza)
    (hk : ∀ kv ∈ st, (kv.1 : String).data.head? ≠ some '#') :
    writeStanzaBody true "\n" st = unlines (stanzaPhys st) := by
  rw [writeStanzaBody, stanzaPhys, unlines_append]
  rw [show unlines [""] = "\n" by
    rw [unlines, unlines, str_append_nil, str_nil_append]]
  rw [if_pos rfl]
  congr 1
  exact join_renderKV_eq _ fun kv hkv =>
    hk kv ((sortByB_perm pairBle st).mem_iff.mp hkv)

theorem headerText_eq (k : StanzaKey) :
    headerText k = headerLineOf k ++ "\n" := by
  cases k <;>
    (apply str_eq_of_data; simp [headerText, headerLineOf, data_append_eq])

theorem join_chunks_eq (L : List (StanzaKey × Stanza))
    (hk : ∀ si ∈ L, ∀ kv ∈ si.2, (kv.1 : String).data.head? ≠ some '#') :
    String.join (L.map (fun sc =>
      headerText sc.1 ++ writeStanzaBody true "\n" sc.2)) =
      unlines (L.flatMap chunkPhys) := by
  induction L with
  | nil => rfl
  | cons si t ih =>
    rw [List.map_cons, strJoin_cons, List.flatMap_cons, unlines_append]
    rw [chunkPhys]
    rw [show unlines (headerLineOf si.1 :: stanzaPhys si.2) =
      headerLineOf si.1 ++ "\n" ++ unlines (stanzaPhys si.2) from rfl]
    rw [headerText_eq,
      writeStanzaBody_eq_unlines si.2 (hk si (by simp)),
      ih fun x hx => hk x (List.mem_cons_of_mem _ hx)]

theorem writeConf_eq_unlines (D : Doc)
    (hk : ∀ si ∈ D, ∀ kv ∈ si.2, (kv.1 : String).data.head? ≠ some '#') :
    writeConfD D = unlines (physLines D) := by
  rw [writeConfD, writeConf, physLines, unlines_append]
  rw [if_pos rfl]
  congr 1
  · by_cases hg : dcontains D GLOBAL_STANZA = true
    · rw [if_pos hg, if_pos hg]
      refine writeStanzaBody_eq_unlines _ ?_
      intro kv hkv
      cases hlk : dlookup D GLOBAL_STANZA with
      | none =>
        unfold dcontains at hg
        rw [hlk] at hg
        simp at hg
      | some st =>
        refine hk (GLOBAL_STANZA, st) (dlookup_mem hlk) kv ?_
        unfold dgetD at hkv
        rw [hlk] at hkv
        exact hkv
    · rw [if_neg hg, if_neg hg]
      rfl
  · refine join_chunks_eq _ ?_
    intro si hsi
    have hsi2 : si ∈ ddel D GLOBAL_STANZA :=
      (sortByB_perm stzPairBle _).mem_iff.mp hsi
    exact hk si (mem_ddel hsi2)

theorem contHandlerAux_flush {l : String} (hl : contMatches l = false)
    (b : String) (t : List String) :
    contHandlerAux b (l :: t) = (b ++ l) :: contHandlerAux "" t := by
  rw [contHandlerAux, if_neg (by simp [hl])]
  by_cases hb : b = ""
  · rw [if_pos hb, hb, str_nil_append]
  · rw [if_neg hb]

theorem contHandlerAux_cont_step {l : String} (hl : contMatches l = true)
    (b : String) (t : List String) :
    contHandlerAux b (l :: t) =
      contHandlerAux (b ++ contGroup l ++ "\n") t := by
  rw [contHandlerAux, if_pos hl]

theorem contHandler_kvPhysAux :
    ∀ (cs pre : List Char) (b : String) (rest : List String),
      '\n' ∉ pre →
      (pre ++ cs).getLast? ≠ some '\\' →
      (pre ++ cs).getLast? ≠ some '\n' →
      contHandlerAux b (kvPhysAux pre cs ++ rest) =
        (b ++ String.mk (pre ++ cs)) :: contHandlerAux "" rest := by
  intro cs
  induction cs with
  | nil =>
    intro pre b rest _ hbs _
    rw [List.append_nil] at hbs
    rw [kvPhysAux, List.cons_append, List.nil_append]
    rw [contHandlerAux_flush (decide_eq_false hbs) b rest]
    rw [List.append_nil]
  | cons c t ih =>
    intro pre b rest hpre hbs hnl
    by_cases hc : c = '\n'
    · subst hc
      have ht : t ≠ [] := by
        intro he
        subst he
        exact hnl (List.getLast?_concat _)
      rw [kvPhysAux, if_pos rfl, List.cons_append]
      rw [contHandlerAux_cont_step
        (show contMatches (String.mk (pre ++ ['\\'])) = true by
          unfold contMatches
          exact decide_eq_true (List.getLast?_concat _)) b _]
      rw [show contGroup (String.mk (pre ++ ['\\'])) = String.mk pre by
        unfold contGroup
        rw [show (String.mk (pre ++ ['\\'])).data = pre ++ ['\\'] from rfl,
          List.dropLast_concat]]
      have hlast : ∀ (x : Char), (pre ++ '\n' :: t).getLast? ≠ some x →
          (([] : List Char) ++ t).getLast? ≠ some x := by
        intro x hx
        rw [List.nil_append]
        intro hcon
        apply hx
        rw [show pre ++ '\n' :: t = (pre ++ ['\n']) ++ t by simp]
        rw [List.getLast?_append_of_ne_nil _ ht]
        exact hcon
      rw [ih [] (b ++ String.mk pre ++ "\n") rest (by simp)
        (hlast '\\' hbs) (hlast '\n' hnl)]
      congr 1
      apply str_eq_of_data
      simp [data_append_eq]
    · rw [kvPhysAux, if_neg hc]
      have heq : (pre ++ [c]) ++ t = pre ++ c :: t := by simp
      rw [ih (pre ++ [c]) b rest
        (by simp [hpre, hc]; exact fun h => hc h.symm)
        (by rw [heq]; exact hbs)
        (by rw [heq]; exact hnl)]
      rw [heq]

/-- Witness for C9: concrete instances of all four parts — dropping
`[x]` before `[y]`, a trailing `[e]` kept as an empty mapping (both at
the reader and in the parsed document), and a trailing `[]` dropped. -/
theorem C9_witness :
    parseConfD (["a = 1"] ++ "[x]" :: "[y]" :: ["k = v"]) =
      parseConfD (["a = 1"] ++ "[y]" :: ["k = v"]) ∧
    sectionReaderAux (some "s") ["l1"] ["[e]"] =
      (if (["l1"] : List String) ≠ [] then [(some "s", ["l1"])] else []) ++
        [(some "e", [])] ∧
    dlookup [(StanzaKey.name "x", [("a", "1")]), (StanzaKey.name "e", [])]
      (StanzaKey.name "e") = some [] ∧
    sectionReaderAux (some "s") [] ["[]"] =
      (if ([] : List String) ≠ [] then [(some "s", [])] else []) :=
  ⟨C9_empty_stanzas.1 ["a = 1"] "[x]" "[y]" ["k = v"] "x" "y" (by decide)
      (by decide) (by decide),
   C9_empty_stanzas.2.1 (some "s") ["l1"] "[e]" "e" (by decide) (by decide),
   C9_empty_stanzas.2.2.1 ["[x]", "a = 1"] "[e]" "e"
      [(StanzaKey.name "x", [("a", "1")]), (StanzaKey.name "e", [])]
      (by decide) (by decide) (by decide) (by rfl),
   C9_empty_stanzas.2.2.2 (some "s") [] "[]" (by decide)⟩

/-- Witness for C7: destination `f.conf` holding `"old"`, replaced by a
different serialization; the update path runs through the three
filesystem states of the amended claim. -/
theorem C7_witness :
    (dlookup [("f.conf", "old")] "f.conf" = some "old" ∧
      NodupKeys ([("f.conf", "old")] : FileSys) ∧
      "old" ≠ writeConf wDocA "\n" true) ∧
    (∃ fs1 fs2 fs3,
      smartWriteConf "f.conf" wDocA [("f.conf", "old")] =
        ([fs1, fs2, fs3], SMART_UPDATE) ∧
      dlookup fs1 "f.conf" = some "old" ∧
      dlookup fs1 ("f.conf" ++ ".tmp") = some (writeConf wDocA "\n" true) ∧
      dlookup fs2 "f.conf" = none ∧
      dlookup fs2 ("f.conf" ++ ".tmp") = some (writeConf wDocA "\n" true) ∧
      dlookup fs3 "f.conf" = some (writeConf wDocA "\n" true)) :=
  ⟨⟨by decide, by decide, by decide⟩,
    (C7_amended "f.conf" wDocA [("f.conf", "old")] "old" (by decide)
      (by decide)).2 (by decide)⟩

/-- Witness for C10: the layer drop-marks stanza `gone`, absent from the
base; the merged result has no entry for `gone`. -/
theorem C10_witness :
    (NodupKeys wDocLayer ∧
      dlookup wDocLayer (StanzaKey.name "gone") = some wDropStanza ∧
      hasDropMarker wDropStanza = true ∧
      dlookup wDocBase (StanzaKey.name "gone") = none) ∧
    dlookup (mergeStep wDocBase wDocLayer) (StanzaKey.name "gone") = none :=
  ⟨⟨by decide, by decide, by decide, by decide⟩,
    C10_drop_absent wDocBase wDocLayer (StanzaKey.name "gone") wDropStanza
      (by decide) (by decide) (by decide) (by decide)⟩

theorem splitNL_ne_nil : ∀ (l : List Char), splitNL l ≠ [] := by
  intro l
  induction l with
  | nil => simp [splitNL]
  | cons c t ih =>
    rw [splitNL]
    by_cases hc : c = '\n'
    · rw [if_pos hc]
      simp
    · rw [if_neg hc]
      cases h : splitNL t with
      | nil => simp
      | cons a r => simp

theorem splitNL_append_nl : ∀ (a b : List Char), '\n' ∉ a →
    splitNL (a ++ '\n' :: b) = a :: splitNL b := by
  intro a
  induction a with
  | nil =>
    intro b _
    rw [List.nil_append, splitNL, if_pos rfl]
  | cons c t ih =>
    intro b ha
    have hc : ¬ c = '\n' := by
      intro h
      exact ha (by rw [h]; exact List.mem_cons_self _ _)
    rw [List.cons_append, splitNL, if_neg hc,
      ih b (fun h => ha (List.mem_cons_of_mem _ h))]

theorem splitNL_unlines (L : List String) (h : ∀ l ∈ L, '\n' ∉ l.data) :
    splitNL (unlines L).data = L.map String.data ++ [[]] := by
  induction L with
  | nil => rfl
  | cons l t ih =>
    have hdata : (l ++ "\n" ++ unlines t).data =
        l.data ++ '\n' :: (unlines t).data := by
      rw [data_append_eq, data_append_eq]
      simp
    rw [unlines, hdata, splitNL_append_nl _ _ (h l (by simp)),
      ih (fun x hx => h x (List.mem_cons_of_mem _ hx)), List.map_cons,
      List.cons_append]

theorem str_ne_empty_of_data {s : String} (h : s.data ≠ []) : s ≠ "" := by
  intro he
  rw [he] at h
  exact h rfl

theorem map_mk_data : ∀ (M : List String),
    M.map (fun x => String.mk x.data) = M
  | [] => rfl
  | a :: r => by rw [List.map_cons, map_mk_data r]

theorem linesOf_unlines (L : List String) (h : ∀ l ∈ L, '\n' ∉ l.data) :
    linesOf (unlines L) = L := by
  cases L with
  | nil => rfl
  | cons l t =>
    have hne : unlines (l :: t) ≠ "" := by
      refine str_ne_empty_of_data ?_
      rw [show unlines (l :: t) = l ++ "\n" ++ unlines t from rfl,
        data_append_eq, data_append_eq]
      simp
    unfold linesOf
    rw [if_neg hne]
    dsimp only
    rw [splitNL_unlines _ h, List.getLast?_concat, if_pos rfl,
      List.dropLast_concat, List.map_map]
    exact map_mk_data _

theorem kvPhysAux_noNL : ∀ (cs pre : List Char), '\n' ∉ pre →
    ∀ l ∈ kvPhysAux pre cs, '\n' ∉ (l : String).data := by
  intro cs
  induction cs with
  | nil =>
    intro pre hpre l hl
    rw [kvPhysAux] at hl
    simp at hl
    subst hl
    exact hpre
  | cons c t ih =>
    intro pre hpre l hl
    by_cases hc : c = '\n'
    · subst hc
      rw [kvPhysAux, if_pos rfl] at hl
      rcases List.mem_cons.mp hl with h1 | h2
      · subst h1
        intro hmem
        rcases List.mem_append.mp hmem with h | h
        · exact hpre h
        · simp at h
      · exact ih [] (by simp) l h2
    · rw [kvPhysAux, if_neg hc] at hl
      refine ih (pre ++ [c]) ?_ l hl
      intro hmem
      rcases List.mem_append.mp hmem with h | h
      · exact hpre h
      · simp at h
        exact hc h.symm

theorem stanzaPhys_noNL (st : Stanza)
    (hk : ∀ kv ∈ st, strNoNL kv.1 = true) :
    ∀ l ∈ stanzaPhys st, '\n' ∉ (l : String).data := by
  intro l hl
  rw [stanzaPhys] at hl
  rcases List.mem_append.mp hl with h | h
  · rcases List.mem_flatMap.mp h with ⟨kv, hkv, hlkv⟩
    refine kvPhysAux_noNL _ _ ?_ l hlkv
    have hknl := hk kv ((sortByB_perm pairBle st).mem_iff.mp hkv)
    intro hm
    rcases List.mem_append.mp hm with h1 | h1
    · unfold strNoNL at hknl
      have := List.all_eq_true.mp hknl _ h1
      simp at this
    · simp at h1
  · simp at h
    subst h
    decide

theorem headerLineOf_noNL (k : StanzaKey) (hn : NameInv k) :
    '\n' ∉ (headerLineOf k).data := by
  cases k with
  | global => decide
  | name s =>
    rw [headerLineOf, data_append_eq, data_append_eq]
    intro hm
    rcases List.mem_append.mp hm with h | h
    · rcases List.mem_append.mp h with h1 | h1
      · exact absurd h1 (by decide)
      · exact hn h1
    · exact absurd h (by decide)

theorem physLines_noNL (D : Doc)
    (hk : ∀ si ∈ D, ∀ kv ∈ si.2, strNoNL kv.1 = true)
    (hn : ∀ si ∈ D, NameInv si.1) :
    ∀ l ∈ physLines D, '\n' ∉ (l : String).data := by
  intro l hl
  rw [physLines] at hl
  rcases List.mem_append.mp hl with h | h
  · by_cases hg : dcontains D GLOBAL_STANZA = true
    · rw [if_pos hg] at h
      refine stanzaPhys_noNL _ ?_ l h
      intro kv hkv
      cases hlk : dlookup D GLOBAL_STANZA with
      | none =>
        unfold dcontains at hg
        rw [hlk] at hg
        simp at hg
      | some st =>
        refine hk (GLOBAL_STANZA, st) (dlookup_mem hlk) kv ?_
        unfold dgetD at hkv
        rw [hlk] at hkv
        exact hkv
    · rw [if_neg hg] at h
      simp at h
  · rcases List.mem_flatMap.mp h with ⟨si, hsi, hlsi⟩
    have hsi2 : si ∈ ddel D GLOBAL_STANZA :=
      (sortByB_perm stzPairBle _).mem_iff.mp hsi
    rw [chunkPhys] at hlsi
    rcases List.mem_cons.mp hlsi with h1 | h1
    · subst h1
      exact headerLineOf_noNL _ (hn si (mem_ddel hsi2))
    · exact stanzaPhys_noNL _ (hk si (mem_ddel hsi2)) l h1

theorem linesOf_writeConf (D : Doc)
    (hk : ∀ si ∈ D, ∀ kv ∈ si.2, strNoNL kv.1 = true ∧
      (kv.1 : String).data.head? ≠ some '#')
    (hn : ∀ si ∈ D, NameInv si.1) :
    linesOf (writeConfD D) = physLines D := by
  rw [writeConf_eq_unlines D (fun si hsi kv hkv => (hk si hsi kv hkv).2)]
  exact linesOf_unlines _
    (physLines_noNL D (fun si hsi kv hkv => (hk si hsi kv hkv).1) hn)

theorem contMatches_headerLine (k : StanzaKey) :
    contMatches (headerLineOf k) = false := by
  cases k with
  | global => decide
  | name s =>
    unfold contMatches
    apply decide_eq_false
    rw [headerLineOf]
    rw [show ("[" ++ s ++ "]").data = ('[' :: s.data) ++ [']'] by
      simp [data_append_eq]]
    rw [List.getLast?_concat]
    decide

theorem contHandler_kvList :
    ∀ (l : List (String × String)) (rest : List String),
      (∀ kv ∈ l, KVLineOK kv) →
      contHandlerAux "" (l.flatMap kvPhys ++ rest) =
        l.map (fun kv => kv.1 ++ " = " ++ kv.2) ++ contHandlerAux "" rest := by
  intro l
  induction l with
  | nil =>
    intro rest _
    rw [List.flatMap_nil, List.nil_append, List.map_nil, List.nil_append]
  | cons kv t ih =>
    intro rest hok
    obtain ⟨h1, h2, h3⟩ := hok kv (by simp)
    have hpre : '\n' ∉ kv.1.data ++ [' ', '=', ' '] := by
      intro hm
      rcases List.mem_append.mp hm with h | h
      · exact h1 h
      · simp at h
    rw [List.flatMap_cons, List.append_assoc, kvPhys]
    rw [contHandler_kvPhysAux kv.2.data (kv.1.data ++ [' ', '=', ' ']) ""
      (t.flatMap kvPhys ++ rest) hpre h2 h3]
    rw [ih rest (fun x hx => hok x (List.mem_cons_of_mem _ hx))]
    rw [List.map_cons, List.cons_append]
    congr 1

theorem contHandler_stanzaBody (st : Stanza) (rest : List String)
    (hok : ∀ kv ∈ sortByB pairBle st, KVLineOK kv) :
    contHandlerAux "" (stanzaPhys st ++ rest) =
      stanzaBodyLines st ++ contHandlerAux "" rest := by
  rw [stanzaPhys, List.append_assoc]
  rw [contHandler_kvList _ _ hok]
  rw [stanzaBodyLines, kvLogical, List.append_assoc]
  congr 1

theorem contHandler_chunks :
    ∀ (L : List (StanzaKey × Stanza)) (rest : List String),
      (∀ si ∈ L, ∀ kv ∈ sortByB pairBle si.2, KVLineOK kv) →
      contHandlerAux "" (L.flatMap chunkPhys ++ rest) =
        L.flatMap chunkLogical ++ contHandlerAux "" rest := by
  intro L
  induction L with
  | nil =>
    intro rest _
    rw [List.flatMap_nil, List.nil_append, List.flatMap_nil, List.nil_append]
  | cons si t ih =>
    intro rest hok
    rw [List.flatMap_cons, chunkPhys, List.cons_append, List.cons_append,
      List.append_assoc]
    rw [contHandlerAux_flush (contMatches_headerLine si.1) ""]
    rw [str_nil_append]
    rw [contHandler_stanzaBody si.2 _ (hok si (by simp))]
    rw [ih rest (fun x hx => hok x (List.mem_cons_of_mem _ hx))]
    rw [List.flatMap_cons, chunkLogical]
    simp [List.append_assoc]

theorem contHandler_physLines (D : Doc)
    (hok : ∀ si ∈ D, ∀ kv ∈ si.2, KVLineOK kv) :
    contHandler (physLines D) = logicalLines D := by
  have hokRest : ∀ si ∈ sortByB stzPairBle (ddel D GLOBAL_STANZA),
      ∀ kv ∈ sortByB pairBle si.2, KVLineOK kv := by
    intro si hsi kv hkv
    have hsi2 : si ∈ ddel D GLOBAL_STANZA :=
      (sortByB_perm stzPairBle _).mem_iff.mp hsi
    exact hok si (mem_ddel hsi2) kv
      ((sortByB_perm pairBle si.2).mem_iff.mp hkv)
  have hchunks := contHandler_chunks
    (sortByB stzPairBle (ddel D GLOBAL_STANZA)) [] hokRest
  rw [List.append_nil, show contHandlerAux "" [] = [] from rfl,
    List.append_nil] at hchunks
  rw [contHandler, physLines, logicalLines]
  by_cases hg : dcontains D GLOBAL_STANZA = true
  · rw [if_pos hg, if_pos hg]
    have hokG : ∀ kv ∈ sortByB pairBle (dgetD D GLOBAL_STANZA []),
        KVLineOK kv := by
      intro kv hkv
      have hkv2 := (sortByB_perm pairBle _).mem_iff.mp hkv
      cases hlk : dlookup D GLOBAL_STANZA with
      | none =>
        unfold dcontains at hg
        rw [hlk] at hg
        simp at hg
      | some st =>
        refine hok (GLOBAL_STANZA, st) (dlookup_mem hlk) kv ?_
        unfold dgetD at hkv2
        rw [hlk] at hkv2
        exact hkv2
    rw [contHandler_stanzaBody _ _ hokG]
    rw [hchunks]
  · rw [if_neg hg, if_neg hg, List.nil_append, List.nil_append]
    exact hchunks

theorem kvLineOK_of (k v : String) (hknl : strNoNL k = true)
    (hv : v.data.getLast? ≠ some '\\') (hvn : v.data.getLast? ≠ some '\n') :
    KVLineOK (k, v) := by
  have hne : ([' ', '=', ' '] : List Char) ≠ [] := by simp
  refine ⟨?_, ?_, ?_⟩
  · intro hm
    unfold strNoNL at hknl
    have := List.all_eq_true.mp hknl _ hm
    simp at this
  · by_cases hvd : v.data = []
    · rw [show (k, v).2 = v from rfl, hvd, List.append_nil,
        List.getLast?_append_of_ne_nil _ hne]
      decide
    · rw [List.getLast?_append_of_ne_nil _ hvd]
      exact hv
  · by_cases hvd : v.data = []
    · rw [show (k, v).2 = v from rfl, hvd, List.append_nil,
        List.getLast?_append_of_ne_nil _ hne]
      decide
    · rw [List.getLast?_append_of_ne_nil _ hvd]
      exact hvn

theorem headerGroup_concat : ∀ (s : List Char), '\n' ∉ s →
    headerGroup (s ++ [']']) = some s := by
  intro s
  induction s with
  | nil => intro _; rfl
  | cons c t ih =>
    intro hs
    have hc : c ≠ '\n' := fun h => hs (by rw [h]; exact List.mem_cons_self _ _)
    rw [List.cons_append, headerGroup]
    rw [if_pos hc, ih (fun h => hs (List.mem_cons_of_mem _ h))]

theorem secNameOf_noNL (k : StanzaKey) (hn : NameInv k) :
    '\n' ∉ (secNameOf k).data := by
  cases k with
  | global => decide
  | name s => exact hn

theorem headerLine_getLast (k : StanzaKey) :
    (headerLineOf k).data.getLast? = some ']' := by
  cases k with
  | global => decide
  | name s =>
    rw [headerLineOf, show ("[" ++ s ++ "]").data = ('[' :: s.data) ++ [']'] by
      simp [data_append_eq]]
    exact List.getLast?_concat _

theorem headerName_headerLine (k : StanzaKey) (hn : NameInv k) :
    headerName (rstripNL (headerLineOf k)) = some (secNameOf k) := by
  rw [rstripNL_eq_self (headerLine_getLast k) (by decide) (by decide)]
  cases k with
  | global => decide
  | name s =>
    rw [headerLineOf, secNameOf]
    unfold headerName
    rw [show ("[" ++ s ++ "]").data = '[' :: (s.data ++ [']']) by
      simp [data_append_eq]]
    show (headerGroup (s.data ++ [']'])).map String.mk = some s
    rw [headerGroup_concat s.data hn]
    rfl

theorem sectionReaderAux_body :
    ∀ (body : List String) (sec : Option String) (buf : List String)
      (rest : List String), (∀ l ∈ body, BodyLineOK l) →
      sectionReaderAux sec buf (body ++ rest) =
        sectionReaderAux sec (buf ++ body) rest := by
  intro body
  induction body with
  | nil =>
    intro sec buf rest _
    rw [List.nil_append, List.append_nil]
  | cons l t ih =>
    intro sec buf rest hok
    obtain ⟨h1, h2⟩ := hok l (by simp)
    rw [List.cons_append, sectionReaderAux]
    simp only [h1, h2]
    rw [ih sec (buf ++ [l]) rest (fun x hx => hok x (List.mem_cons_of_mem _ hx))]
    rw [List.append_assoc, List.singleton_append]

theorem sectionReaderAux_flush_buf (sec : Option String) (buf : List String)
    (hb : buf ≠ []) : sectionReaderAux sec buf [] = [(sec, buf)] := by
  simp [sectionReaderAux, hb]

theorem sectionReaderAux_chunks :
    ∀ (L : List (StanzaKey × Stanza)) (sec : Option String)
      (buf : List String), buf ≠ [] → (∀ si ∈ L, GoodChunk si) →
      sectionReaderAux sec buf (L.flatMap chunkLogical) =
        (sec, buf) :: L.map
          (fun si => (some (secNameOf si.1), stanzaBodyLines si.2)) := by
  intro L
  induction L with
  | nil =>
    intro sec buf hb _
    rw [List.flatMap_nil, List.map_nil]
    exact sectionReaderAux_flush_buf sec buf hb
  | cons si t ih =>
    intro sec buf hb hok
    obtain ⟨hn, hbody⟩ := hok si (by simp)
    rw [List.flatMap_cons, chunkLogical, List.cons_append]
    rw [sectionReaderAux_header _
      (headerName_headerLine si.1 (by
        cases hk : si.1 with
        | global => trivial
        | name s => exact fun hm => hn (by rw [hk]; exact hm)))]
    rw [if_pos hb]
    rw [sectionReaderAux_body _ _ _ _ hbody, List.nil_append]
    rw [ih (some (secNameOf si.1)) (stanzaBodyLines si.2)
      (by rw [stanzaBodyLines]; simp)
      (fun x hx => hok x (List.mem_cons_of_mem _ hx))]
    rw [List.map_cons]
    rfl

theorem sectionReader_logicalLines (D : Doc)
    (hbody : ∀ si ∈ D, ∀ l ∈ stanzaBodyLines si.2, BodyLineOK l)
    (hn : ∀ si ∈ D, NameInv si.1) :
    sectionReader (logicalLines D) = sectionsView D := by
  have hokRest : ∀ si ∈ sortByB stzPairBle (ddel D GLOBAL_STANZA),
      GoodChunk si := by
    intro si hsi
    have hsi2 : si ∈ D :=
      mem_ddel ((sortByB_perm stzPairBle _).mem_iff.mp hsi)
    exact ⟨secNameOf_noNL si.1 (hn si hsi2), hbody si hsi2⟩
  rw [sectionReader, logicalLines, sectionsView]
  by_cases hg : dcontains D GLOBAL_STANZA = true
  · rw [if_pos hg, if_pos hg]
    have hgmem : (GLOBAL_STANZA, dgetD D GLOBAL_STANZA []) ∈ D := by
      cases hlk : dlookup D GLOBAL_STANZA with
      | none =>
        unfold dcontains at hg
        rw [hlk] at hg
        simp at hg
      | some st =>
        have : dgetD D GLOBAL_STANZA [] = st := by
          unfold dgetD
          rw [hlk]
          rfl
        rw [this]
        exact dlookup_mem hlk
    rw [sectionReaderAux_body _ _ _ _ (hbody _ hgmem), List.nil_append]
    rw [sectionReaderAux_chunks _ none (stanzaBodyLines (dgetD D GLOBAL_STANZA []))
      (by rw [stanzaBodyLines]; simp) hokRest]
    rfl
  · rw [if_neg hg, if_neg hg, List.nil_append, List.nil_append]
    cases hL : sortByB stzPairBle (ddel D GLOBAL_STANZA) with
    | nil => rfl
    | cons si t =>
      have hok2 : ∀ x ∈ si :: t, GoodChunk x := by
        rw [← hL]
        exact hokRest
      obtain ⟨hnm, hbody2⟩ := hok2 si (by simp)
      rw [List.flatMap_cons, chunkLogical, List.cons_append]
      rw [sectionReaderAux_header _
        (headerName_headerLine si.1 (by
          cases hk : si.1 with
          | global => trivial
          | name s => exact fun hm => hnm (by rw [hk]; exact hm)))]
      rw [if_neg (by simp)]
      rw [sectionReaderAux_body _ _ _ _ hbody2, List.nil_append, List.nil_append]
      rw [sectionReaderAux_chunks t (some (secNameOf si.1))
        (stanzaBodyLines si.2) (by rw [stanzaBodyLines]; simp)
        (fun x hx => hok2 x (List.mem_cons_of_mem _ hx))]
      rw [List.map_cons]

theorem data_kv_line (k v : String) :
    (k ++ " = " ++ v).data = k.data ++ ' ' :: '=' :: ' ' :: v.data := by
  simp [data_append_eq]

theorem splitFirstEq_kv (k v : String) (hk : '=' ∉ k.data) :
    splitFirstEq (k ++ " = " ++ v) =
      some (String.mk (k.data ++ [' ']), String.mk (' ' :: v.data)) := by
  have htd : ∀ (x : List Char), '=' ∉ x →
      (x ++ ' ' :: '=' :: ' ' :: v.data).takeWhile (fun c => c ≠ '=') =
        x ++ [' '] ∧
      (x ++ ' ' :: '=' :: ' ' :: v.data).dropWhile (fun c => c ≠ '=') =
        '=' :: ' ' :: v.data := by
    intro x
    induction x with
    | nil =>
      intro _
      refine ⟨?_, ?_⟩ <;>
        simp [List.takeWhile_cons, List.dropWhile_cons]
    | cons c t ih =>
      intro hx
      have hc : c ≠ '=' := fun h => hx (by rw [h]; exact List.mem_cons_self _ _)
      obtain ⟨ht, hd⟩ := ih (fun h => hx (List.mem_cons_of_mem _ h))
      refine ⟨?_, ?_⟩
      · rw [List.cons_append, List.takeWhile_cons, if_pos (by simp [hc]),
          ht, List.cons_append]
      · rw [List.cons_append, List.dropWhile_cons, if_pos (by simp [hc]), hd]
  unfold splitFirstEq
  rw [data_kv_line, (htd k.data hk).1, (htd k.data hk).2]
  rfl

theorem dropWhile_kv_head : ∀ (x : List Char) (r : List Char),
    (x.dropWhile isPySpace).head? ≠ some '#' →
    ((x ++ ' ' :: '=' :: r).dropWhile isPySpace).head? ≠ some '#' := by
  intro x
  induction x with
  | nil =>
    intro r _
    rw [List.nil_append, List.dropWhile_cons, if_pos (by decide),
      List.dropWhile_cons, if_neg (by decide)]
    simp
  | cons c t ih =>
    intro r hx
    by_cases hc : isPySpace c = true
    · rw [List.cons_append, List.dropWhile_cons, if_pos hc]
      refine ih r ?_
      rw [List.dropWhile_cons, if_pos hc] at hx
      exact hx
    · rw [List.cons_append, List.dropWhile_cons, if_neg hc]
      rw [List.dropWhile_cons, if_neg hc] at hx
      exact hx

theorem isCommentLine_kv (k v : String)
    (hk : (k.data.dropWhile isPySpace).head? ≠ some '#') :
    isCommentLine (k ++ " = " ++ v) = false := by
  unfold isCommentLine
  rw [data_kv_line]
  exact decide_eq_false (dropWhile_kv_head k.data _ hk)

theorem rstripPy_append_space (k : String) (hk : rstripPy k = k) :
    rstripPy (String.mk (k.data ++ [' '])) = k := by
  unfold rstripPy at *
  rw [show (String.mk (k.data ++ [' '])).data = k.data ++ [' '] from rfl]
  rw [List.reverse_append, show ([' '] : List Char).reverse = [' '] from rfl,
    List.singleton_append, List.dropWhile_cons, if_pos (by decide)]
  exact hk

theorem lstripPy_space (v : String) (hv : lstripPy v = v) :
    lstripPy (String.mk (' ' :: v.data)) = v := by
  unfold lstripPy at *
  rw [show (String.mk (' ' :: v.data)).data = ' ' :: v.data from rfl]
  rw [List.dropWhile_cons, if_pos (by decide)]
  exact hv

theorem splitupGo_blank (i : Nat) (t : List String) :
    splitupKvpairs.go false false i ("" :: t) =
      splitupKvpairs.go false false (i + 1) t := rfl

theorem splitupGo_kv (k v : String) (i : Nat) (t : List String)
    (hk : KeyInv k) (hv : ValInv v) :
    splitupKvpairs.go false false i ((k ++ " = " ++ v) :: t) =
      (fun r => (k, v) :: r) <$> splitupKvpairs.go false false (i + 1) t := by
  rw [splitupKvpairs.go]
  rw [if_neg (show ¬ (isCommentLine (k ++ " = " ++ v) = true) by
    rw [isCommentLine_kv k v hk.2.2]; simp)]
  rw [splitFirstEq_kv k v hk.2.1]
  dsimp only
  rw [rstripPy_append_space k hk.1, lstripPy_space v hv.1]

theorem splitupGo_kvList :
    ∀ (l : List (String × String)) (i : Nat),
      (∀ kv ∈ l, KeyInv kv.1 ∧ ValInv kv.2) →
      splitupKvpairs.go false false i
        (l.map (fun kv => kv.1 ++ " = " ++ kv.2) ++ [""]) = .ok l := by
  intro l
  induction l with
  | nil =>
    intro i _
    rw [List.map_nil, List.nil_append, splitupGo_blank]
    rfl
  | cons kv t ih =>
    intro i hok
    obtain ⟨hk, hv⟩ := hok kv (by simp)
    rw [List.map_cons, List.cons_append, splitupGo_kv kv.1 kv.2 i _ hk hv]
    rw [ih (i + 1) (fun x hx => hok x (List.mem_cons_of_mem _ hx))]
    rfl

theorem splitupKvpairs_body (st : Stanza)
    (hok : ∀ kv ∈ sortByB pairBle st, KeyInv kv.1 ∧ ValInv kv.2) :
    splitupKvpairs false false (stanzaBodyLines st) =
      .ok (sortByB pairBle st) := by
  rw [stanzaBodyLines, kvLogical, splitupKvpairs]
  exact splitupGo_kvList _ 0 hok

theorem dset_absent [DecidableEq α] :
    ∀ (l : List (α × β)) (k : α) (v : β), dcontains l k = false →
      dset l k v = l ++ [(k, v)] := by
  intro l
  induction l with
  | nil => intro k v _; rfl
  | cons kv t ih =>
    intro k v hc
    obtain ⟨a, b⟩ := kv
    have ha : ¬ a = k := by
      intro h
      subst h
      rw [show dcontains ((a, b) :: t) a =
        (dlookup ((a, b) :: t) a).isSome from rfl, dlookup, if_pos rfl] at hc
      simp at hc
    have hct : dcontains t k = false := by
      rw [show dcontains ((a, b) :: t) k =
        (dlookup ((a, b) :: t) k).isSome from rfl, dlookup, if_neg ha] at hc
      exact hc
    rw [dset, if_neg ha, ih k v hct, List.cons_append]

theorem dcontains_append [DecidableEq α] (l₁ l₂ : List (α × β)) (k : α) :
    dcontains (l₁ ++ l₂) k = (dcontains l₁ k || dcontains l₂ k) := by
  induction l₁ with
  | nil => simp [dcontains, dlookup]
  | cons kv t ih =>
    obtain ⟨a, b⟩ := kv
    by_cases ha : a = k
    · subst ha
      simp [dcontains, dlookup]
    · simp only [List.cons_append, dcontains, dlookup, if_neg ha] at *
      exact ih

theorem dupdate_append_fresh [DecidableEq α] :
    ∀ (new base : List (α × β)), NodupKeys new →
      (∀ kv ∈ new, dcontains base kv.1 = false) →
      dupdate base new = base ++ new := by
  intro new
  induction new with
  | nil =>
    intro base _ _
    rw [List.append_nil]
    rfl
  | cons kv t ih =>
    intro base hnd hf
    have hnd' : kv.1 ∉ keysOf t ∧ NodupKeys t := by
      unfold NodupKeys at hnd
      rw [List.map_cons, List.nodup_cons] at hnd
      exact hnd
    rw [dupdate_cons, dset_absent base kv.1 kv.2 (hf kv (by simp))]
    rw [ih (base ++ [(kv.1, kv.2)]) hnd'.2 ?_]
    · rw [List.append_assoc, List.singleton_append]
    · intro x hx
      rw [dcontains_append, hf x (List.mem_cons_of_mem _ hx)]
      have hne : ¬ kv.1 = x.1 := by
        intro h
        exact hnd'.1 (h ▸ List.mem_map_of_mem Prod.fst hx)
      simp [dcontains, dlookup, hne]

theorem dupdate_nil_self (pairs : Stanza) (h : NodupKeys pairs) :
    dupdate ([] : Stanza) pairs = pairs := by
  rw [dupdate_append_fresh pairs [] h (fun kv _ => rfl), List.nil_append]

theorem parseStanzaPairs_fresh :
    ∀ (pairs : List (String × String)) (s loc : Stanza),
      NodupKeys pairs → (∀ kv ∈ pairs, dcontains loc kv.1 = false) →
      parseStanzaPairs false DUP_OVERWRITE s loc pairs =
        .ok (dupdate s pairs) := by
  intro pairs
  induction pairs with
  | nil => intro s loc _ _; rfl
  | cons kv t ih =>
    intro s loc hnd hf
    obtain ⟨k, v⟩ := kv
    have hfk : dcontains loc k = false := hf (k, v) (by simp)
    have hnd' : k ∉ keysOf t ∧ NodupKeys t := by
      unfold NodupKeys at hnd
      rw [List.map_cons, List.nodup_cons] at hnd
      exact hnd
    rw [parseStanzaPairs]
    simp only [hfk, Bool.false_eq_true, if_false]
    rw [ih (dset s k v) (dset loc k v) hnd'.2 ?_]
    · rw [dupdate_cons]
    · intro x hx
      rw [Bool.eq_false_iff]
      intro hdc
      rcases mem_keys_dset ((dcontains_iff _ _).mp hdc) with h1 | h2
      · have h3 := hf x (List.mem_cons_of_mem _ hx)
        rw [(dcontains_iff _ _).mpr h1] at h3
        exact absurd h3 (by decide)
      · exact hnd'.1 (h2 ▸ List.mem_map_of_mem Prod.fst hx)

theorem ok_bind {γ δ : Type} (a : γ) (f : γ → Except String δ) :
    (Except.ok a >>= f : Except String δ) = f a := rfl

theorem nodupKeys_sortByB {st : Stanza} (h : NodupKeys st) :
    NodupKeys (sortByB pairBle st) := by
  unfold NodupKeys at h ⊢
  exact (((sortByB_perm pairBle st).map Prod.fst).nodup_iff).mpr h

theorem parseSections_chunk_some (n : String) (sections : Doc) (st : Stanza)
    (rest : List (Option String × List String))
    (hc : dcontains sections (StanzaKey.name n) = false)
    (hst : NodupKeys st)
    (hkv : ∀ kv ∈ st, KeyInv kv.1 ∧ ValInv kv.2) :
    parseSections false false false DUP_EXCEPTION DUP_OVERWRITE sections
      ((some n, stanzaBodyLines st) :: rest) =
      parseSections false false false DUP_EXCEPTION DUP_OVERWRITE
        (sections ++ [(StanzaKey.name n, sortByB pairBle st)]) rest := by
  have hnds : NodupKeys (sortByB pairBle st) := nodupKeys_sortByB hst
  rw [parseSections.eq_def]
  dsimp only
  rw [if_neg (by rw [hc]; exact Bool.false_ne_true)]
  rw [ok_bind]
  rw [splitupKvpairs_body st (fun kv hkv2 =>
    hkv kv ((sortByB_perm pairBle st).mem_iff.mp hkv2))]
  rw [ok_bind]
  rw [parseStanzaPairs_fresh (sortByB pairBle st) [] [] hnds
    (fun kv _ => rfl)]
  rw [dupdate_nil_self _ hnds, ok_bind]
  rw [dset_absent sections (StanzaKey.name n) _ hc]

theorem parseSections_chunk_global (sections : Doc) (st : Stanza)
    (rest : List (Option String × List String))
    (hc : dcontains sections GLOBAL_STANZA = false)
    (hst : NodupKeys st)
    (hkv : ∀ kv ∈ st, KeyInv kv.1 ∧ ValInv kv.2) :
    parseSections false false false DUP_EXCEPTION DUP_OVERWRITE sections
      ((none, stanzaBodyLines st) :: rest) =
      parseSections false false false DUP_EXCEPTION DUP_OVERWRITE
        (sections ++ [(GLOBAL_STANZA, sortByB pairBle st)]) rest := by
  have hnds : NodupKeys (sortByB pairBle st) := nodupKeys_sortByB hst
  rw [parseSections.eq_def]
  dsimp only
  rw [if_neg (by rw [hc]; exact Bool.false_ne_true)]
  rw [ok_bind]
  rw [splitupKvpairs_body st (fun kv hkv2 =>
    hkv kv ((sortByB_perm pairBle st).mem_iff.mp hkv2))]
  rw [ok_bind]
  rw [parseStanzaPairs_fresh (sortByB pairBle st) [] [] hnds
    (fun kv _ => rfl)]
  rw [dupdate_nil_self _ hnds, ok_bind]
  rw [dset_absent sections GLOBAL_STANZA _ hc]

theorem parseSections_named :
    ∀ (L : List (StanzaKey × Stanza)) (sections : Doc),
      (∀ si ∈ L, dcontains sections si.1 = false) →
      NodupKeys L →
      (∀ si ∈ L, ∃ n, si.1 = StanzaKey.name n) →
      (∀ si ∈ L, NodupKeys si.2 ∧ ∀ kv ∈ si.2, KeyInv kv.1 ∧ ValInv kv.2) →
      parseSections false false false DUP_EXCEPTION DUP_OVERWRITE sections
        (L.map (fun si => (some (secNameOf si.1), stanzaBodyLines si.2))) =
        .ok (sections ++ L.map (fun si => (si.1, sortByB pairBle si.2))) := by
  intro L
  induction L with
  | nil =>
    intro sections _ _ _ _
    rw [List.map_nil, List.map_nil, List.append_nil]
    rfl
  | cons si t ih =>
    intro sections hfresh hnd hname hwf
    obtain ⟨n, hn⟩ := hname si (by simp)
    have hnd' : si.1 ∉ keysOf t ∧ NodupKeys t := by
      unfold NodupKeys at hnd
      rw [List.map_cons, List.nodup_cons] at hnd
      exact hnd
    rw [List.map_cons, List.map_cons, hn,
      show secNameOf (StanzaKey.name n) = n from rfl]
    rw [parseSections_chunk_some n sections si.2 _
      (hn ▸ hfresh si (by simp)) (hwf si (by simp)).1 (hwf si (by simp)).2]
    rw [ih (sections ++ [(StanzaKey.name n, sortByB pairBle si.2)]) ?_
      hnd'.2 (fun x hx => hname x (List.mem_cons_of_mem _ hx))
      (fun x hx => hwf x (List.mem_cons_of_mem _ hx))]
    · rw [List.append_assoc, List.singleton_append]
    · intro x hx
      rw [dcontains_append, hfresh x (List.mem_cons_of_mem _ hx)]
      have hne : ¬ StanzaKey.name n = x.1 := by
        intro h
        exact hnd'.1 (by rw [hn, h]; exact List.mem_map_of_mem Prod.fst hx)
      simp [dcontains, dlookup, hne]

theorem parseSections_view (D : Doc) (hwf : WfDoc D)
    (hkv : ∀ si ∈ D, ∀ kv ∈ si.2, KeyInv kv.1 ∧ ValInv kv.2) :
    parseSections false false false DUP_EXCEPTION DUP_OVERWRITE []
      (sectionsView D) = .ok (parsedView D) := by
  have hmemL : ∀ si ∈ sortByB stzPairBle (ddel D GLOBAL_STANZA), si ∈ D :=
    fun si hsi => mem_ddel ((sortByB_perm stzPairBle _).mem_iff.mp hsi)
  have hname : ∀ si ∈ sortByB stzPairBle (ddel D GLOBAL_STANZA),
      ∃ n, si.1 = StanzaKey.name n := by
    intro si hsi
    cases hk : si.1 with
    | name n => exact ⟨n, rfl⟩
    | global =>
      exfalso
      have hmem : si ∈ ddel D GLOBAL_STANZA :=
        (sortByB_perm stzPairBle _).mem_iff.mp hsi
      have hdc := dcontains_of_mem hmem
      rw [hk] at hdc
      rw [show dcontains (ddel D GLOBAL_STANZA) StanzaKey.global =
        (dlookup (ddel D GLOBAL_STANZA) StanzaKey.global).isSome from rfl,
        show StanzaKey.global = GLOBAL_STANZA from rfl,
        dlookup_ddel_self hwf.1 GLOBAL_STANZA] at hdc
      simp at hdc
  have hndL : NodupKeys (sortByB stzPairBle (ddel D GLOBAL_STANZA)) := by
    unfold NodupKeys
    refine (((sortByB_perm stzPairBle _).map Prod.fst).nodup_iff).mpr ?_
    exact nodupKeys_ddel hwf.1 GLOBAL_STANZA
  have hwfL : ∀ si ∈ sortByB stzPairBle (ddel D GLOBAL_STANZA),
      NodupKeys si.2 ∧ ∀ kv ∈ si.2, KeyInv kv.1 ∧ ValInv kv.2 :=
    fun si hsi => ⟨hwf.2 si (hmemL si hsi), hkv si (hmemL si hsi)⟩
  rw [sectionsView, parsedView]
  by_cases hg : dcontains D GLOBAL_STANZA = true
  · rw [if_pos hg, if_pos hg]
    have hgmem : (GLOBAL_STANZA, dgetD D GLOBAL_STANZA []) ∈ D := by
      cases hlk : dlookup D GLOBAL_STANZA with
      | none =>
        unfold dcontains at hg
        rw [hlk] at hg
        simp at hg
      | some st =>
        have heq : dgetD D GLOBAL_STANZA [] = st := by
          unfold dgetD
          rw [hlk]
          rfl
        rw [heq]
        exact dlookup_mem hlk
    rw [List.singleton_append, List.singleton_append]
    rw [parseSections_chunk_global [] (dgetD D GLOBAL_STANZA []) _ rfl
      (hwf.2 _ hgmem) (hkv _ hgmem)]
    rw [List.nil_append]
    rw [parseSections_named _ [(GLOBAL_STANZA, _)] ?_ hndL hname hwfL]
    · rw [List.singleton_append]
    · intro x hx
      obtain ⟨n, hn⟩ := hname x hx
      rw [hn]
      rfl
  · rw [if_neg hg, if_neg hg, List.nil_append, List.nil_append]
    rw [parseSections_named _ [] (fun x _ => rfl) hndL hname hwfL]
    rw [List.nil_append]

theorem stanzaEqb_of_perm {s t : Stanza} (hperm : List.Perm s t)
    (hnd : NodupKeys t) : stanzaEqb s t = true := by
  have hnds : NodupKeys s := by
    unfold NodupKeys at *
    exact ((hperm.map Prod.fst).nodup_iff).mpr hnd
  unfold stanzaEqb
  rw [Bool.and_eq_true, List.all_eq_true, List.all_eq_true]
  constructor
  · intro kv hkv
    exact decide_eq_true (mem_dlookup hnd (hperm.mem_iff.mp hkv))
  · intro kv hkv
    exact decide_eq_true (mem_dlookup hnds (hperm.mem_iff.mpr hkv))

theorem mem_ddel_of_ne [DecidableEq α] {l : List (α × β)} {k : α}
    {kv : α × β} (h : kv ∈ l) (hne : kv.1 ≠ k) : kv ∈ ddel l k := by
  induction l with
  | nil => simp at h
  | cons hd t ih =>
    obtain ⟨a, b⟩ := hd
    rw [ddel]
    by_cases ha : a = k
    · rw [if_pos ha]
      rcases List.mem_cons.mp h with h1 | h1
      · exact absurd (by rw [h1]; exact ha) hne
      · exact h1
    · rw [if_neg ha]
      rcases List.mem_cons.mp h with h1 | h1
      · exact h1 ▸ List.mem_cons_self _ _
      · exact List.mem_cons_of_mem _ (ih h1)

theorem nodupKeys_sorted_ddel (D : Doc) (hnd : NodupKeys D) :
    NodupKeys (sortByB stzPairBle (ddel D GLOBAL_STANZA)) := by
  unfold NodupKeys
  refine (((sortByB_perm stzPairBle _).map Prod.fst).nodup_iff).mpr ?_
  exact nodupKeys_ddel hnd GLOBAL_STANZA

theorem keys_map_resort : ∀ (L : List (StanzaKey × Stanza)),
    (L.map (fun si => (si.1, sortByB pairBle si.2))).map Prod.fst =
      L.map Prod.fst
  | [] => rfl
  | si :: t => by
    rw [List.map_cons, List.map_cons, List.map_cons, keys_map_resort t]

theorem global_not_mem_ddel_keys (D : Doc) (hnd : NodupKeys D) :
    GLOBAL_STANZA ∉ keysOf (ddel D GLOBAL_STANZA) := by
  intro hmem
  have hc := (dcontains_iff _ _).mpr hmem
  rw [show dcontains (ddel D GLOBAL_STANZA) GLOBAL_STANZA =
    (dlookup (ddel D GLOBAL_STANZA) GLOBAL_STANZA).isSome from rfl,
    dlookup_ddel_self hnd] at hc
  simp at hc

theorem nodupKeys_parsedView (D : Doc) (hwf : WfDoc D) :
    NodupKeys (parsedView D) := by
  have hL := nodupKeys_sorted_ddel D hwf.1
  rw [parsedView]
  by_cases hg : dcontains D GLOBAL_STANZA = true
  · rw [if_pos hg, List.singleton_append]
    unfold NodupKeys at *
    rw [List.map_cons, List.nodup_cons, keys_map_resort]
    refine ⟨?_, hL⟩
    intro hmem
    refine global_not_mem_ddel_keys D hwf.1 ?_
    exact (((sortByB_perm stzPairBle _).map Prod.fst).mem_iff).mp hmem
  · rw [if_neg hg, List.nil_append]
    unfold NodupKeys at *
    rw [keys_map_resort]
    exact hL

theorem parsedView_entry (D : Doc) (hwf : WfDoc D) :
    ∀ si ∈ parsedView D, ∃ st, dlookup D si.1 = some st ∧
      List.Perm si.2 st ∧ NodupKeys st := by
  intro si hsi
  rw [parsedView] at hsi
  rcases List.mem_append.mp hsi with h | h
  · by_cases hg : dcontains D GLOBAL_STANZA = true
    · rw [if_pos hg] at h
      simp only [List.mem_singleton] at h
      subst h
      cases hlk : dlookup D GLOBAL_STANZA with
      | none =>
        unfold dcontains at hg
        rw [hlk] at hg
        simp at hg
      | some st =>
        have heq : dgetD D GLOBAL_STANZA [] = st := by
          unfold dgetD
          rw [hlk]
          rfl
        refine ⟨st, rfl, ?_, hwf.2 _ (dlookup_mem hlk)⟩
        show List.Perm (sortByB pairBle (dgetD D GLOBAL_STANZA [])) st
        rw [heq]
        exact sortByB_perm pairBle st
    · rw [if_neg hg] at h
      simp at h
  · obtain ⟨x, hx, hxe⟩ := List.mem_map.mp h
    have hxD : x ∈ D := mem_ddel ((sortByB_perm stzPairBle _).mem_iff.mp hx)
    refine ⟨x.2, ?_, ?_, hwf.2 x hxD⟩
    · rw [← hxe]
      exact mem_dlookup hwf.1 hxD
    · rw [← hxe]
      exact sortByB_perm pairBle x.2

theorem parsedView_covers (D : Doc) (hwf : WfDoc D) :
    ∀ si ∈ D, dlookup (parsedView D) si.1 =
      some (sortByB pairBle si.2) := by
  intro si hsi
  have hndP := nodupKeys_parsedView D hwf
  refine mem_dlookup hndP ?_
  cases hk : si.1 with
  | global =>
    have hg : dcontains D GLOBAL_STANZA = true := by
      have := dcontains_of_mem hsi
      rw [hk] at this
      exact this
    have hsi' : (GLOBAL_STANZA, si.2) ∈ D := by
      rw [show GLOBAL_STANZA = si.1 from hk.symm]
      exact hsi
    have heq : dgetD D GLOBAL_STANZA [] = si.2 := by
      unfold dgetD
      rw [mem_dlookup hwf.1 hsi']
      rfl
    rw [parsedView, if_pos hg, heq]
    exact List.mem_append_left _ (by simp [GLOBAL_STANZA])
  | name n =>
    have hne : si.1 ≠ GLOBAL_STANZA := by
      rw [hk]
      intro hcon
      exact StanzaKey.noConfusion hcon
    have hmem : si ∈ sortByB stzPairBle (ddel D GLOBAL_STANZA) :=
      (sortByB_perm stzPairBle _).mem_iff.mpr (mem_ddel_of_ne hsi hne)
    refine List.mem_append_right _ ?_
    refine List.mem_map.mpr ⟨si, hmem, ?_⟩
    show (si.1, sortByB pairBle si.2) = (StanzaKey.name n, sortByB pairBle si.2)
    rw [hk]

theorem docEqb_parsedView (D : Doc) (hwf : WfDoc D) :
    docEqb (parsedView D) D = true := by
  unfold docEqb
  rw [Bool.and_eq_true, List.all_eq_true, List.all_eq_true]
  constructor
  · intro si hsi
    obtain ⟨st, hst, hperm, hnd⟩ := parsedView_entry D hwf si hsi
    rw [hst]
    exact stanzaEqb_of_perm hperm hnd
  · intro si hsi
    rw [parsedView_covers D hwf si hsi]
    refine stanzaEqb_of_perm ?_ (hwf.2 si hsi)
    exact sortByB_perm pairBle si.2

theorem dropWhile_idem (p : α → Bool) :
    ∀ (x : List α), (x.dropWhile p).dropWhile p = x.dropWhile p := by
  intro x
  induction x with
  | nil => rfl
  | cons c t ih =>
    rw [List.dropWhile_cons]
    by_cases hc : p c = true
    · rw [if_pos hc]
      exact ih
    · rw [if_neg hc, List.dropWhile_cons, if_neg hc]

theorem rstripPy_idem (s : String) : rstripPy (rstripPy s) = rstripPy s := by
  unfold rstripPy
  apply str_eq_of_data
  show ((((s.data.reverse.dropWhile isPySpace).reverse).reverse).dropWhile
    isPySpace).reverse = (s.data.reverse.dropWhile isPySpace).reverse
  rw [List.reverse_reverse, dropWhile_idem]

theorem lstripPy_idem (s : String) : lstripPy (lstripPy s) = lstripPy s := by
  unfold lstripPy
  apply str_eq_of_data
  show (s.data.dropWhile isPySpace).dropWhile isPySpace =
    s.data.dropWhile isPySpace
  exact dropWhile_idem _ _

theorem rstripNL_idem (l : String) : rstripNL (rstripNL l) = rstripNL l := by
  unfold rstripNL
  apply str_eq_of_data
  show ((((l.data.reverse.dropWhile (fun c => c = '\n' || c = '\r')).reverse
      ).reverse).dropWhile (fun c => c = '\n' || c = '\r')).reverse =
    (l.data.reverse.dropWhile (fun c => c = '\n' || c = '\r')).reverse
  rw [List.reverse_reverse, dropWhile_idem]

theorem rstripNL_last {l : String} (h : rstripNL l = l) :
    l.data.getLast? ≠ some '\n' ∧ l.data.getLast? ≠ some '\r' := by
  have hdata : (l.data.reverse.dropWhile
      (fun c => c = '\n' || c = '\r')).reverse = l.data :=
    congrArg String.data h
  have hdrop : l.data.reverse.dropWhile (fun c => c = '\n' || c = '\r') =
      l.data.reverse := by
    have := congrArg List.reverse hdata
    rwa [List.reverse_reverse] at this
  rw [← List.head?_reverse]
  cases hrev : l.data.reverse with
  | nil => simp
  | cons c r =>
    rw [hrev] at hdrop
    have hc : ¬ ((c = '\n' || c = '\r') = true) := by
      have h0 := List.dropWhile_eq_self_iff.mp hdrop (by simp)
      simpa using h0
    · rw [Bool.or_eq_true] at hc
      push_neg at hc
      have h1 : c ≠ '\n' := fun hcc => hc.1 (decide_eq_true hcc)
      have h2 : c ≠ '\r' := fun hcc => hc.2 (decide_eq_true hcc)
      constructor
      · intro hcon
        rw [List.head?_cons] at hcon
        injection hcon with hcon
        exact h1 hcon
      · intro hcon
        rw [List.head?_cons] at hcon
        injection hcon with hcon
        exact h2 hcon

theorem headerGroup_noNL : ∀ {t g : List Char}, headerGroup t = some g →
    '\n' ∉ g := by
  intro t
  induction t with
  | nil =>
    intro g h
    simp [headerGroup] at h
  | cons c t' ih =>
    intro g h
    by_cases hc : c = '\n'
    · subst hc
      have hnone : headerGroup ('\n' :: t') = none := by
        rw [headerGroup]
        simp
      rw [hnone] at h
      simp at h
    · rw [headerGroup, if_pos (by simpa using hc)] at h
      cases hg : headerGroup t' with
      | some g' =>
        rw [hg] at h
        simp only [Option.some.injEq] at h
        subst h
        intro hm
        rcases List.mem_cons.mp hm with h1 | h1
        · exact hc h1.symm
        · exact ih hg h1
      | none =>
        rw [hg] at h
        simp only at h
        split at h
        · injection h with h
          subst h
          simp
        · simp at h

theorem headerName_noNL {s : String} {n : String}
    (h : headerName s = some n) : '\n' ∉ n.data := by
  unfold headerName at h
  cases hld : s.data with
  | nil =>
    rw [hld] at h
    simp at h
  | cons c t =>
    rw [hld] at h
    by_cases hcb : c = '['
    · subst hcb
      simp only at h
      cases hg : headerGroup t with
      | none =>
        rw [hg] at h
        simp at h
      | some g =>
        rw [hg] at h
        have h2 : some (String.mk g) = some n := h
        injection h2 with h2
        rw [← h2]
        exact headerGroup_noNL hg
    · have hnone : (match c :: t with
          | '[' :: rest => (headerGroup rest).map String.mk
          | _ => none) = (none : Option String) := by
        split
        · rename_i heq
          injection heq with h1 _
          exact absurd h1 hcb
        · rfl
      rw [hnone] at h
      simp at h

theorem mem_rstripPy_sub {s : String} {x : Char}
    (h : x ∈ (rstripPy s).data) : x ∈ s.data := by
  unfold rstripPy at h
  rw [show (String.mk ((s.data.reverse.dropWhile isPySpace).reverse)).data =
    (s.data.reverse.dropWhile isPySpace).reverse from rfl,
    List.mem_reverse] at h
  have hsub := (List.dropWhile_sublist (l := s.data.reverse)
    (p := isPySpace)).subset h
  rwa [List.mem_reverse] at hsub

theorem head_dropWhile_append (p : α → Bool) :
    ∀ (a b : List α) (c : α), (a.dropWhile p).head? = some c →
      ((a ++ b).dropWhile p).head? = some c := by
  intro a
  induction a with
  | nil =>
    intro b c h
    simp at h
  | cons x t ih =>
    intro b c h
    rw [List.dropWhile_cons] at h
    rw [List.cons_append, List.dropWhile_cons]
    by_cases hx : p x = true
    · rw [if_pos hx] at h
      rw [if_pos hx]
      exact ih b c h
    · rw [if_neg hx] at h
      rw [if_neg hx]
      exact h

theorem head_dropWhile_takeWhile (p q : α → Bool) :
    ∀ (x : List α) (c : α), ((x.takeWhile q).dropWhile p).head? = some c →
      (x.dropWhile p).head? = some c := by
  intro x
  induction x with
  | nil =>
    intro c h
    simp at h
  | cons a t ih =>
    intro c h
    rw [List.takeWhile_cons] at h
    by_cases ha : q a = true
    · rw [if_pos ha, List.dropWhile_cons] at h
      rw [List.dropWhile_cons]
      by_cases hp : p a = true
      · rw [if_pos hp] at h
        rw [if_pos hp]
        exact ih c h
      · rw [if_neg hp] at h
        rw [if_neg hp]
        exact h
    · rw [if_neg ha] at h
      simp at h

theorem rstripPy_split (s : String) :
    s.data = (rstripPy s).data ++ (s.data.reverse.takeWhile isPySpace).reverse := by
  rw [show (rstripPy s).data =
    (s.data.reverse.dropWhile isPySpace).reverse from rfl]
  rw [← List.reverse_append, List.takeWhile_append_dropWhile,
    List.reverse_reverse]

theorem rstripPy_head_dropWhile {s : String} {c : Char}
    (h : ((rstripPy s).data.dropWhile isPySpace).head? = some c) :
    (s.data.dropWhile isPySpace).head? = some c := by
  rw [rstripPy_split s]
  exact head_dropWhile_append isPySpace _ _ c h

theorem splitFirstEq_eq {entry k v : String}
    (h : splitFirstEq entry = some (k, v)) :
    k.data = entry.data.takeWhile (fun c => c ≠ '=') ∧
      entry.data = k.data ++ '=' :: v.data := by
  unfold splitFirstEq at h
  dsimp only at h
  cases hrest : entry.data.dropWhile (fun c => c ≠ '=') with
  | nil =>
    rw [hrest] at h
    simp at h
  | cons c post =>
    rw [hrest] at h
    by_cases hc : c = '='
    · subst hc
      simp only [Option.some.injEq, Prod.mk.injEq] at h
      obtain ⟨hk, hv⟩ := h
      refine ⟨by rw [← hk], ?_⟩
      rw [← List.takeWhile_append_dropWhile
        (p := fun c => decide (c ≠ '=')) (l := entry.data), hrest, ← hk, ← hv]
    · exfalso
      have hnone : (match c :: post with
          | '=' :: post => some (String.mk
              (entry.data.takeWhile (fun c => c ≠ '=')), String.mk post)
          | _ => none) = (none : Option (String × String)) := by
        split
        · rename_i heq
          injection heq with h1 _
          exact absurd h1 hc
        · rfl
      rw [hnone] at h
      simp at h

theorem head_not_comment {k : String}
    (h : (k.data.dropWhile isPySpace).head? ≠ some '#') :
    k.data.head? ≠ some '#' := by
  cases hd : k.data with
  | nil => simp
  | cons c t =>
    rw [List.head?_cons]
    intro hcon
    injection hcon with hcon
    subst hcon
    apply h
    rw [hd, List.dropWhile_cons, if_neg (by decide), List.head?_cons]

theorem except_map_ok {γ δ : Type} {f : γ → δ} {e : Except String γ} {d : δ}
    (h : (f <$> e) = Except.ok d) : ∃ c, e = Except.ok c ∧ f c = d := by
  cases e with
  | error err => simp [Functor.map, Except.map] at h
  | ok c =>
    have h2 : Except.ok (f c) = Except.ok d := h
    injection h2 with h2
    exact ⟨c, rfl, h2⟩

theorem keyInv_of_split {entry k v : String}
    (hic : isCommentLine entry = false)
    (hsp : splitFirstEq entry = some (k, v)) : KeyInv (rstripPy k) := by
  obtain ⟨hk, hsplit⟩ := splitFirstEq_eq hsp
  refine ⟨rstripPy_idem k, ?_, ?_⟩
  · intro hm
    have hmk := mem_rstripPy_sub hm
    rw [hk] at hmk
    have hp := List.mem_takeWhile_imp hmk
    simp at hp
  · intro hcon
    have h1 := rstripPy_head_dropWhile hcon
    rw [hk] at h1
    have h2 := head_dropWhile_takeWhile isPySpace _ entry.data '#' h1
    unfold isCommentLine at hic
    rw [h2] at hic
    simp at hic

theorem valInv_of_split {entry k v : String}
    (hentry : rstripNL entry = entry)
    (hsp : splitFirstEq entry = some (k, v)) : ValInv (lstripPy v) := by
  obtain ⟨-, hsplit⟩ := splitFirstEq_eq hsp
  have hlast := rstripNL_last hentry
  have hv : ∀ x, v.data.getLast? = some x → entry.data.getLast? = some x := by
    intro x hx
    rw [hsplit]
    have hvne : v.data ≠ [] := by
      intro he
      rw [he] at hx
      simp at hx
    rw [List.getLast?_append_of_ne_nil _ (by simp : '=' :: v.data ≠ [])]
    cases hvd : v.data with
    | nil => exact absurd hvd hvne
    | cons a r =>
      rw [List.getLast?_cons_cons, ← hvd]
      exact hx
  have hld : ∀ x, (lstripPy v).data.getLast? = some x →
      v.data.getLast? = some x := by
    intro x hx
    rw [show (lstripPy v).data = v.data.dropWhile isPySpace from rfl] at hx
    rw [← List.takeWhile_append_dropWhile (p := isPySpace) (l := v.data)]
    have hne : v.data.dropWhile isPySpace ≠ [] := by
      intro he
      rw [he] at hx
      simp at hx
    rw [List.getLast?_append_of_ne_nil _ hne]
    exact hx
  refine ⟨lstripPy_idem v, ?_, ?_⟩
  · intro hcon
    exact hlast.1 (hv '\n' (hld '\n' hcon))
  · intro hcon
    exact hlast.2 (hv '\r' (hld '\r' hcon))

theorem splitupKvpairs_go_inv :
    ∀ (entries : List String) (i : Nat) (pairs : List (String × String)),
      (∀ l ∈ entries, rstripNL l = l) →
      splitupKvpairs.go false false i entries = .ok pairs →
      ∀ kv ∈ pairs, KeyInv kv.1 ∧ ValInv kv.2 := by
  intro entries
  induction entries with
  | nil =>
    intro i pairs _ h kv hkv
    have h2 : Except.ok ([] : List (String × String)) = Except.ok pairs := h
    injection h2 with h2
    rw [← h2] at hkv
    simp at hkv
  | cons entry t ih =>
    intro i pairs hstr h kv hkv
    rw [splitupKvpairs.go] at h
    by_cases hic : isCommentLine entry = true
    · rw [if_pos hic, if_neg (by simp)] at h
      exact ih (i + 1) pairs (fun l hl => hstr l (List.mem_cons_of_mem _ hl))
        h kv hkv
    · have hic' : isCommentLine entry = false := by
        cases hh : isCommentLine entry
        · rfl
        · exact absurd hh hic
      rw [if_neg hic] at h
      cases hsp : splitFirstEq entry with
      | some kvp =>
        obtain ⟨k, v⟩ := kvp
        simp only [hsp] at h
        obtain ⟨r, hr, hfr⟩ := except_map_ok h
        rw [← hfr] at hkv
        rcases List.mem_cons.mp hkv with h1 | h1
        · subst h1
          exact ⟨keyInv_of_split hic' hsp,
            valInv_of_split (hstr entry (by simp)) hsp⟩
        · exact ih (i + 1) r
            (fun l hl => hstr l (List.mem_cons_of_mem _ hl)) hr kv h1
      | none =>
        simp only [hsp] at h
        rw [if_neg (by simp)] at h
        exact ih (i + 1) pairs
          (fun l hl => hstr l (List.mem_cons_of_mem _ hl)) h kv hkv

theorem parseStanzaPairs_inv :
    ∀ (pairs : List (String × String)) (s loc s' : Stanza),
      parseStanzaPairs false DUP_OVERWRITE s loc pairs = .ok s' →
      NodupKeys s → (∀ kv ∈ s, KeyInv kv.1 ∧ ValInv kv.2) →
      (∀ kv ∈ pairs, KeyInv kv.1 ∧ ValInv kv.2) →
      NodupKeys s' ∧ ∀ kv ∈ s', KeyInv kv.1 ∧ ValInv kv.2 := by
  intro pairs
  induction pairs with
  | nil =>
    intro s loc s' h hnd hP _
    have h2 : Except.ok s = Except.ok s' := h
    injection h2 with h2
    subst h2
    exact ⟨hnd, hP⟩
  | cons kv t ih =>
    intro s loc s' h hnd hP hPp
    obtain ⟨k, v⟩ := kv
    have hPk := hPp (k, v) (by simp)
    have hPp' : ∀ x ∈ t, KeyInv x.1 ∧ ValInv x.2 :=
      fun x hx => hPp x (List.mem_cons_of_mem _ hx)
    have hstep : ∀ (s2 loc2 : Stanza),
        parseStanzaPairs false DUP_OVERWRITE (dset s2 k v) loc2 t = .ok s' →
        NodupKeys s2 → (∀ x ∈ s2, KeyInv x.1 ∧ ValInv x.2) →
        NodupKeys s' ∧ ∀ x ∈ s', KeyInv x.1 ∧ ValInv x.2 := by
      intro s2 loc2 hrec hnd2 hP2
      refine ih (dset s2 k v) loc2 s' hrec (nodupKeys_dset hnd2 k v) ?_ hPp'
      intro x hx
      rcases mem_dset hx with h1 | h2
      · exact hP2 x h1
      · rw [h2]
        exact hPk
    rw [parseStanzaPairs] at h
    by_cases hdc : dcontains loc k = true
    · simp only [Bool.false_eq_true, if_false, hdc, eq_self_iff_true,
        if_true, decide_True, Bool.true_or] at h
      exact hstep s (dset loc k v) h hnd hP
    · have hdc' : dcontains loc k = false := by
        cases hh : dcontains loc k
        · rfl
        · exact absurd hh hdc
      simp only [Bool.false_eq_true, if_false, hdc'] at h
      exact hstep s (dset loc k v) h hnd hP

theorem sectionReaderAux_inv :
    ∀ (lines : List String) (sec : Option String) (buf : List String),
      (∀ l ∈ buf, rstripNL l = l) →
      (∀ n, sec = some n → '\n' ∉ n.data) →
      ∀ se ∈ sectionReaderAux sec buf lines,
        (∀ l ∈ se.2, rstripNL l = l) ∧
        ∀ n, se.1 = some n → '\n' ∉ n.data := by
  intro lines
  induction lines with
  | nil =>
    intro sec buf hbuf hsec se hse
    rw [sectionReaderAux.eq_def] at hse
    dsimp only at hse
    split at hse
    · simp only [List.mem_singleton] at hse
      subst hse
      exact ⟨hbuf, hsec⟩
    · simp at hse
  | cons l t ih =>
    intro sec buf hbuf hsec se hse
    rw [sectionReaderAux] at hse
    cases hh : headerName (rstripNL l) with
    | some n =>
      simp only [hh] at hse
      rcases List.mem_append.mp hse with h1 | h1
      · split at h1
        · simp only [List.mem_singleton] at h1
          subst h1
          exact ⟨hbuf, hsec⟩
        · simp at h1
      · refine ih (some n) [] (by simp) ?_ se h1
        intro n' hn'
        injection hn' with hn'
        subst hn'
        exact headerName_noNL hh
    | none =>
      simp only [hh] at hse
      refine ih sec (buf ++ [rstripNL l]) ?_ hsec se hse
      intro x hx
      rcases List.mem_append.mp hx with h1 | h1
      · exact hbuf x h1
      · simp only [List.mem_singleton] at h1
        subst h1
        exact rstripNL_idem l

theorem parseSections_step_inv (sk : StanzaKey) (sections : Doc)
    (entry : List String) (rest : List (Option String × List String))
    (D' : Doc)
    (h : ((if dcontains sections sk = true then
            (if DUP_EXCEPTION = DUP_OVERWRITE then Except.ok ([] : Stanza)
             else if DUP_EXCEPTION = DUP_EXCEPTION then
               Except.error "Stanza found more than once in config file"
             else if DUP_EXCEPTION = DUP_MERGE then
               Except.ok (dgetD sections sk [])
             else Except.ok (dgetD sections sk []))
          else Except.ok []) >>= fun s =>
          splitupKvpairs false false entry >>= fun pairs =>
          parseStanzaPairs false DUP_OVERWRITE s [] pairs >>= fun s =>
          parseSections false false false DUP_EXCEPTION DUP_OVERWRITE
            (dset sections sk s) rest) = Except.ok D')
    (hentry : ∀ l ∈ entry, rstripNL l = l) :
    ∃ s2, NodupKeys s2 ∧ (∀ kv ∈ s2, KeyInv kv.1 ∧ ValInv kv.2) ∧
      parseSections false false false DUP_EXCEPTION DUP_OVERWRITE
        (dset sections sk s2) rest = Except.ok D' := by
  obtain ⟨s, hstart, h2⟩ := except_bind_ok h
  by_cases hdc : dcontains sections sk = true
  · rw [if_pos hdc, if_neg (by decide), if_pos rfl] at hstart
    exact absurd hstart (by simp)
  · rw [if_neg hdc] at hstart
    injection hstart with hstart
    subst hstart
    obtain ⟨pairs, hpairs, h3⟩ := except_bind_ok h2
    obtain ⟨s2, hps, h4⟩ := except_bind_ok h3
    rw [splitupKvpairs] at hpairs
    have hPp := splitupKvpairs_go_inv entry 0 pairs hentry hpairs
    have hinv2 := parseStanzaPairs_inv pairs [] [] s2 hps
      (by simp [NodupKeys]) (by simp) hPp
    exact ⟨s2, hinv2.1, hinv2.2, h4⟩

theorem parseSections_inv :
    ∀ (S : List (Option String × List String)) (sections D' : Doc),
      parseSections false false false DUP_EXCEPTION DUP_OVERWRITE sections S =
        Except.ok D' →
      NodupKeys sections →
      (∀ si ∈ sections, NodupKeys si.2 ∧ NameInv si.1 ∧
        ∀ kv ∈ si.2, KeyInv kv.1 ∧ ValInv kv.2) →
      (∀ se ∈ S, (∀ l ∈ se.2, rstripNL l = l) ∧
        ∀ n, se.1 = some n → '\n' ∉ n.data) →
      NodupKeys D' ∧ ∀ si ∈ D', NodupKeys si.2 ∧ NameInv si.1 ∧
        ∀ kv ∈ si.2, KeyInv kv.1 ∧ ValInv kv.2 := by
  intro S
  induction S with
  | nil =>
    intro sections D' h hnd hinv _
    have h2 : Except.ok sections = Except.ok D' := h
    injection h2 with h2
    subst h2
    exact ⟨hnd, hinv⟩
  | cons se rest ih =>
    intro sections D' h hnd hinv hstream
    obtain ⟨sname, entry⟩ := se
    have hent : ∀ l ∈ entry, rstripNL l = l :=
      (hstream (sname, entry) (by simp)).1
    have hrest : ∀ x ∈ rest, (∀ l ∈ x.2, rstripNL l = l) ∧
        ∀ n, x.1 = some n → '\n' ∉ n.data :=
      fun x hx => hstream x (List.mem_cons_of_mem _ hx)
    cases sname with
    | none =>
      obtain ⟨s2, hnd2, hP2, hrec⟩ := parseSections_step_inv
        GLOBAL_STANZA sections entry rest D' h hent
      refine ih (dset sections GLOBAL_STANZA s2) D' hrec
        (nodupKeys_dset hnd _ _) ?_ hrest
      intro si hsi
      rcases mem_dset hsi with h1 | h1
      · exact hinv si h1
      · rw [h1]
        exact ⟨hnd2, trivial, hP2⟩
    | some n =>
      obtain ⟨s2, hnd2, hP2, hrec⟩ := parseSections_step_inv
        (StanzaKey.name n) sections entry rest D' h hent
      refine ih (dset sections (StanzaKey.name n) s2) D' hrec
        (nodupKeys_dset hnd _ _) ?_ hrest
      intro si hsi
      rcases mem_dset hsi with h1 | h1
      · exact hinv si h1
      · rw [h1]
        exact ⟨hnd2, (hstream (some n, entry) (by simp)).2 n rfl, hP2⟩

theorem docInv_of_parse {input : List String} {D : Doc}
    (hp : parseConfD input = Except.ok D) : DocInv D := by
  have hp2 : parseSections false false false DUP_EXCEPTION DUP_OVERWRITE []
      (sectionReader (contHandler input)) = Except.ok D := hp
  have hstream : ∀ se ∈ sectionReader (contHandler input),
      (∀ l ∈ se.2, rstripNL l = l) ∧
      ∀ n, se.1 = some n → '\n' ∉ n.data := by
    intro se hse
    refine sectionReaderAux_inv _ none [] (by simp) ?_ se hse
    intro n hn
    exact absurd hn (by simp)
  have hres := parseSections_inv _ [] D hp2 (by simp [NodupKeys]) (by simp)
    hstream
  exact ⟨⟨hres.1, fun si hsi => (hres.2 si hsi).1⟩,
    fun si hsi => ⟨(hres.2 si hsi).2.1, (hres.2 si hsi).2.2⟩⟩

theorem rstripNL_eq_self_of (l : String) (hn : l.data.getLast? ≠ some '\n')
    (hr : l.data.getLast? ≠ some '\r') : rstripNL l = l := by
  cases hgl : l.data.getLast? with
  | some c =>
    refine rstripNL_eq_self hgl ?_ ?_
    · intro hcc
      exact hn (hcc ▸ hgl)
    · intro hcc
      exact hr (hcc ▸ hgl)
  | none =>
    have hld : l.data = [] := by
      cases hld : l.data with
      | nil => rfl
      | cons a r =>
        rw [hld] at hgl
        simp at hgl
    have hl0 : l = "" := str_eq_of_data (by rw [hld])
    rw [hl0]
    decide

theorem bodyLine_rstrip {k v : String} (hn : v.data.getLast? ≠ some '\n')
    (hr : v.data.getLast? ≠ some '\r') :
    rstripNL (k ++ " = " ++ v) = k ++ " = " ++ v := by
  have hseq : (k ++ " = " ++ v).data.getLast? =
      (' ' :: '=' :: ' ' :: v.data).getLast? := by
    rw [data_kv_line]
    exact List.getLast?_append_of_ne_nil _ (by simp)
  have hrest : (' ' :: '=' :: ' ' :: v.data).getLast? ≠ some '\n' ∧
      (' ' :: '=' :: ' ' :: v.data).getLast? ≠ some '\r' := by
    by_cases hvd : v.data = []
    · rw [hvd]
      refine ⟨by decide, by decide⟩
    · rw [show (' ' :: '=' :: ' ' :: v.data) =
        [' ', '=', ' '] ++ v.data from rfl,
        List.getLast?_append_of_ne_nil _ hvd]
      exact ⟨hn, hr⟩
  refine rstripNL_eq_self_of _ ?_ ?_
  · rw [hseq]
    exact hrest.1
  · rw [hseq]
    exact hrest.2

theorem roundTripSafe_spec {D : Doc} (h : roundTripSafe D = true) :
    ∀ si ∈ D, ∀ kv ∈ si.2, strNoNL kv.1 = true ∧
      kv.2.data.getLast? ≠ some '\\' ∧
      headerName (kv.1 ++ " = " ++ kv.2) = none := by
  unfold roundTripSafe at h
  rw [List.all_eq_true] at h
  intro si hsi kv hkv
  have h2 := h si hsi
  rw [List.all_eq_true] at h2
  have h3 := h2 kv hkv
  rw [Bool.and_eq_true, Bool.and_eq_true] at h3
  exact ⟨h3.1.1, of_decide_eq_true h3.1.2, of_decide_eq_true h3.2⟩

/-- Claim C4 (counterexample): parsing the comment-free input
`["[x]", "a\\", "b = c"]` folds the continuation into the logical line
`"a\nb = c"`, producing the stanza `{x: {"a\nb": "c"}}`.  `write_conf`
emits that key verbatim, so its embedded newline splits the entry back
into two physical lines; re-parsing drops the bare line `a` and yields
`{x: {"b": "c"}}`, which is not `==` to the original document — the
round trip fails for a document produced by `parse_conf` on well-formed,
comment-free input. -/
theorem C4_counterexample :
    noComments ["[x]", "a\\", "b = c"] ∧
    parseConfD ["[x]", "a\\", "b = c"] =
      Except.ok [(StanzaKey.name "x", [("a\nb", "c")])] ∧
    parseConfD (linesOf (writeConfD
        [(StanzaKey.name "x", [("a\nb", "c")])])) =
      Except.ok [(StanzaKey.name "x", [("b", "c")])] ∧
    docEqb [(StanzaKey.name "x", [("b", "c")])]
      [(StanzaKey.name "x", [("a\nb", "c")])] = false := by
  refine ⟨by decide, by rfl, by rfl, by decide⟩

/-- Claim C4 (amended): for every document `D` produced by `parse_conf`
(default arguments) on input containing no comments, and whose entries are
round-trip safe — no key contains a newline, no value ends in a backslash,
and no rendered `key = value` line matches the stanza-header pattern —
parsing the text produced by `write_conf(D)` succeeds and yields a
document `==`-equal to `D`.  Each of the three extra conditions is forced
by a concrete failure, e.g. `C4_counterexample` for newline-bearing keys. -/
theorem C4_amended (input : List String) (D : Doc)
    (_hnc : noComments input)
    (hp : parseConfD input = Except.ok D)
    (hs : roundTripSafe D = true) :
    ∃ D', parseConfD (linesOf (writeConfD D)) = Except.ok D' ∧
      docEqb D' D = true := by
  obtain ⟨hwf, hinv⟩ := docInv_of_parse hp
  have hsp := roundTripSafe_spec hs
  have hkeys : ∀ si ∈ D, ∀ kv ∈ si.2, strNoNL kv.1 = true ∧
      (kv.1 : String).data.head? ≠ some '#' := by
    intro si hsi kv hkv
    exact ⟨(hsp si hsi kv hkv).1,
      head_not_comment ((hinv si hsi).2 kv hkv).1.2.2⟩
  have hnames : ∀ si ∈ D, NameInv si.1 := fun si hsi => (hinv si hsi).1
  have h1 : linesOf (writeConfD D) = physLines D :=
    linesOf_writeConf D hkeys hnames
  have hok : ∀ si ∈ D, ∀ kv ∈ si.2, KVLineOK kv := by
    intro si hsi kv hkv
    obtain ⟨hn1, hn2, hn3⟩ := hsp si hsi kv hkv
    exact kvLineOK_of kv.1 kv.2 hn1 hn2 ((hinv si hsi).2 kv hkv).2.2.1
  have h2 : contHandler (physLines D) = logicalLines D :=
    contHandler_physLines D hok
  have hbody : ∀ si ∈ D, ∀ l ∈ stanzaBodyLines si.2, BodyLineOK l := by
    intro si hsi l hl
    rw [stanzaBodyLines] at hl
    rcases List.mem_append.mp hl with hkl | hbl
    · rw [kvLogical] at hkl
      obtain ⟨kv, hkv, hle⟩ := List.mem_map.mp hkl
      have hkvD := (sortByB_perm pairBle si.2).mem_iff.mp hkv
      obtain ⟨hn1, hn2, hn3⟩ := hsp si hsi kv hkvD
      have hval := ((hinv si hsi).2 kv hkvD).2
      subst hle
      exact ⟨bodyLine_rstrip hval.2.1 hval.2.2, hn3⟩
    · simp only [List.mem_singleton] at hbl
      subst hbl
      exact ⟨by decide, by decide⟩
  have h3 : sectionReader (logicalLines D) = sectionsView D :=
    sectionReader_logicalLines D hbody hnames
  have h4 := parseSections_view D hwf
    (fun si hsi kv hkv => (hinv si hsi).2 kv hkv)
  refine ⟨parsedView D, ?_, docEqb_parsedView D hwf⟩
  show parseSections false false false DUP_EXCEPTION DUP_OVERWRITE []
    (sectionReader (contHandler (linesOf (writeConfD D)))) =
    Except.ok (parsedView D)
  rw [h1, h2, h3]
  exact h4

/-- Witness for C4: the document parsed from `["[s]", "a = 1"]` is
round-trip safe and the amended round trip holds on it. -/
theorem C4_witness :
    (noComments ["[s]", "a = 1"] ∧
      parseConfD ["[s]", "a = 1"] =
        Except.ok [(StanzaKey.name "s", [("a", "1")])] ∧
      roundTripSafe [(StanzaKey.name "s", [("a", "1")])] = true) ∧
    (∃ D', parseConfD (linesOf (writeConfD
        [(StanzaKey.name "s", [("a", "1")])])) = Except.ok D' ∧
      docEqb D' [(StanzaKey.name "s", [("a", "1")])] = true) :=
  ⟨⟨by decide, by rfl, by decide⟩,
    C4_amended ["[s]", "a = 1"] [(StanzaKey.name "s", [("a", "1")])]
      (by decide) (by rfl) (by decide)⟩

end Ksconf
